import Mathlib

/-!
Verification of the family-matching repository.

Two solving strategies are embedded:

* `Matcher` — the exact 0/1 optimization formulation of `src/matcher.py`
  (`get_optimization` / `run_matcher`).  The external cvxpy solve call is
  modelled by a parameter `solverOut : Option Sol`: `none` stands for an
  infeasible solve (all variable values are `None`, so the extraction loop
  raises), `some sol` for a solve that produced boolean values `sol` for the
  decision variables.  A decision variable exists for a `(user, slot)` pair
  exactly when the recorded preference is strictly positive; other pairs are
  the constant 0 (`cp.Constant(0)` in the source).

* `OldMatcher` — the heuristic local-search solver of `src/old-matcher.py`
  (constraint classes, `Family`, `FamilyMatcher`).  Python exceptions are
  modelled by `Option`: a function returning `none` stands for a raised
  exception.  Python object identity on `JM` objects is modelled by
  structural (decidable) equality.
-/

namespace Matcher

/-- The `User` dataclass from src/matcher.py. -/
structure User where
  id : String
  name : String
  sociability : Int
deriving DecidableEq

/-- The `JMPreference` dataclass from src/matcher.py.  `value`: 1 = most
preferred, 5 = least preferred. -/
structure JMPreference where
  user_id : String
  slot_id : String
  value : Int
deriving DecidableEq

/-- The `Slot` dataclass from src/matcher.py. -/
structure Slot where
  id : String
  time : String
  sm_list : List String
deriving DecidableEq

/-- The `MatcherConfig` dataclass from src/matcher.py. -/
structure MatcherConfig where
  min_family_size : Int
  max_family_size : Int
  sociability_bias : Rat

/-- Values of the boolean decision variables returned by the solver,
indexed by `(user_id, slot_id)`. -/
abbrev Sol := String → String → Bool

/-- The `preference_map` dict of `get_optimization`: built by iterating the
preference list and overwriting, so the last record for a key wins;
`.get(key, 0)` is modelled by `prefFind`/`prefGet`. -/
def prefFind (prefs : List JMPreference) (uid sid : String) : Option Int :=
  (prefs.reverse.find? (fun p => p.user_id == uid && p.slot_id == sid)).map
    (fun p => p.value)

/-- The `preference_map.get((user.id, slot.id), 0)` in `get_optimization`. -/
def prefGet (prefs : List JMPreference) (uid sid : String) : Int :=
  (prefFind prefs uid sid).getD 0

/-- A `(user, slot)` pair gets a `cp.Variable` iff its recorded preference is
strictly positive; otherwise `get_optimization` fixes it as `cp.Constant(0)`. -/
def isVariable (prefs : List JMPreference) (uid sid : String) : Bool :=
  decide (0 < prefGet prefs uid sid)

/-- The solved value of the `assignment[user_id, slot_id]` entry: a constant
zero for ineligible pairs, the solver's boolean value otherwise. -/
def assignVal (prefs : List JMPreference) (sol : Sol) (uid sid : String) : Nat :=
  if isVariable prefs uid sid && sol uid sid then 1 else 0

/-- The `sum(assignment[user.id, slot.id] for slot in slots)` — the per-user sum
constrained to equal 1 in `get_optimization`. -/
def userLoad (slots : List Slot) (prefs : List JMPreference) (sol : Sol)
    (uid : String) : Nat :=
  (slots.map (fun s => assignVal prefs sol uid s.id)).sum

/-- The `sum(assignment[user.id, slot.id] for user in jm_users)` — the per-slot
sum bounded by the family-size configuration in `get_optimization`. -/
def slotLoad (users : List User) (prefs : List JMPreference) (sol : Sol)
    (sid : String) : Nat :=
  (users.map (fun u => assignVal prefs sol u.id sid)).sum

/-- The exactly-one constraints of `get_optimization`: each JM is assigned to
exactly one slot. -/
def exactlyOne (users : List User) (slots : List Slot)
    (prefs : List JMPreference) (sol : Sol) : Prop :=
  ∀ u ∈ users, userLoad slots prefs sol u.id = 1

/-- The family-size constraints of `get_optimization`:
`min_family_size <= total_assigned <= max_family_size` for each slot. -/
def capacityOk (users : List User) (slots : List Slot)
    (prefs : List JMPreference) (config : MatcherConfig) (sol : Sol) : Prop :=
  ∀ s ∈ slots, config.min_family_size ≤ (slotLoad users prefs sol s.id : Int) ∧
    (slotLoad users prefs sol s.id : Int) ≤ config.max_family_size

/-- A solver value assignment satisfying every hard constraint of the
formulation returned by `get_optimization`. -/
def feasible (users : List User) (slots : List Slot)
    (prefs : List JMPreference) (config : MatcherConfig) (sol : Sol) : Prop :=
  exactlyOne users slots prefs sol ∧ capacityOk users slots prefs config sol

/-- The `slots_by_id` dict of `run_matcher` (last entry for an id wins). -/
def slotsById (slots : List Slot) (sid : String) : Option Slot :=
  slots.reverse.find? (fun s => s.id == sid)

/-- The `matched_slot_ids` in `run_matcher`: the set of ids of slots whose
assignment entry is a `cp.Variable` with solved value `> EPS` (for a boolean
variable: value 1, i.e. `sol` true). -/
def matchedSlotIds (prefs : List JMPreference) (slots : List Slot) (sol : Sol)
    (uid : String) : List String :=
  ((slots.filter (fun s => isVariable prefs uid s.id && sol uid s.id)).map
    (fun s => s.id)).dedup

/-- One step of the extraction loop of `run_matcher`:
`assert len(matched_slot_ids) == 1` (modelled by `none` on failure) followed
by `slots_by_id[matched_slot_id]`. -/
def extractUser (prefs : List JMPreference) (slots : List Slot) (sol : Sol)
    (uid : String) : Option Slot :=
  match matchedSlotIds prefs slots sol uid with
  | [sid] => slotsById slots sid
  | _ => none

/-- The full extraction loop of `run_matcher`, building `final_assignment`
(as an association list keyed by user id). -/
def extractAll (prefs : List JMPreference) (slots : List Slot) (sol : Sol) :
    List User → Option (List (String × Slot))
  | [] => some []
  | u :: rest =>
    match extractUser prefs slots sol u.id, extractAll prefs slots sol rest with
    | some s, some m => some ((u.id, s) :: m)
    | _, _ => none

/-- The `run_matcher` from src/matcher.py.  `solverOut = none` models an
infeasible `problem.solve()` (every variable's `.value` is `None`, so the
extraction comparison raises); `some sol` models a successful solve. -/
def run_matcher (users : List User) (prefs : List JMPreference)
    (slots : List Slot) (_config : MatcherConfig) (solverOut : Option Sol) :
    Option (List (String × Slot)) :=
  match solverOut with
  | none => none
  | some sol => extractAll prefs slots sol users

/-- The `final_assignment[user_id]` lookup in the extracted mapping. -/
def lookupAssignment (m : List (String × Slot)) (uid : String) : Option Slot :=
  (m.find? (fun p => p.1 == uid)).map (fun p => p.2)

/-- Number of input agents whose extracted assignment is the slot id `sid`. -/
def assignedCount (users : List User) (m : List (String × Slot))
    (sid : String) : Nat :=
  (users.filter (fun u => ((lookupAssignment m u.id).map Slot.id) == some sid)).length

end Matcher

namespace OldMatcher

/-- The `PreferenceConstraint` from src/old-matcher.py.  `options` is filled only
by the CSV loader (`load_pref_headers`) and is unused by the matching core. -/
structure PreferenceConstraint where
  header : String
  max_pref : Int
  options : List String := []
deriving DecidableEq

/-- The `CountConstraint` from src/old-matcher.py. -/
structure CountConstraint where
  header : String
  value : String
  min_count : Int
  max_count : Int
deriving DecidableEq

/-- The `JMCountConstraint` from src/old-matcher.py (a `CountConstraint` with
header "JM Count", empty value, and an overridden `can_be_satisfied`). -/
structure JMCountConstraint where
  min_count : Int
  max_count : Int
deriving DecidableEq

/-- The `DifferenceConstraint` from src/old-matcher.py. -/
structure DifferenceConstraint where
  header : String
  max_diff : Int
deriving DecidableEq

/-- The module-level configuration of src/old-matcher.py:
`jm_count_constraint`, `preference_constraints`, `count_constraints`,
`difference_constraints` (global variables read throughout the script). -/
structure OldConfig where
  jm_count_constraint : JMCountConstraint
  preference_constraints : List PreferenceConstraint
  count_constraints : List CountConstraint
  difference_constraints : List DifferenceConstraint
deriving DecidableEq

/-- A loaded CSV cell value: for a preference header the JM holds a dict
from option to rating string; for any other header a raw string.  (SM data
values are always raw strings.) -/
inductive CellValue where
  | prefs (m : List (String × String))
  | scalar (s : String)
deriving DecidableEq

/-- The `DataValue` from src/old-matcher.py. -/
structure DataValue where
  header : String
  value : CellValue
deriving DecidableEq

/-- The `SMs` from src/old-matcher.py: the mentor names and their data values. -/
structure SMs where
  sms : List String
  data : List DataValue
deriving DecidableEq

/-- The `SMs.get_datavalue`: first data value with the header, `None` otherwise. -/
def SMs.get_datavalue (s : SMs) (header : String) : Option DataValue :=
  s.data.find? (fun dv => dv.header == header)

/-- The `JM` from src/old-matcher.py. -/
structure JM where
  name : String
  data : List DataValue
deriving DecidableEq

/-- The `JM.get_datavalue`: first data value with the header, `None` otherwise. -/
def JM.get_datavalue (j : JM) (header : String) : Option DataValue :=
  j.data.find? (fun dv => dv.header == header)

/-- The `FamilyStatus` from src/old-matcher.py. -/
inductive FamilyStatus where
  | INCOMPLETE
  | COMPLETE
deriving DecidableEq

/-- The `Family` from src/old-matcher.py. -/
structure Family where
  sms : SMs
  jms : List JM
  status : FamilyStatus
deriving DecidableEq

/-- Python substring containment `pat in s` on the character lists. -/
def substrAux (pat : List Char) : List Char → Bool
  | [] => pat.isEmpty
  | c :: rest => pat.isPrefixOf (c :: rest) || substrAux pat rest

/-- The `pat in s` for strings. -/
def strIn (pat s : String) : Bool := substrAux pat.data s.data

/-- The `is_preference(header)`: some preference constraint's header is a
substring of `header`. -/
def is_preference (cfg : OldConfig) (header : String) : Bool :=
  cfg.preference_constraints.any (fun c => strIn c.header header)

/-- The `is_count(header)`: exact header match against a count constraint. -/
def is_count (cfg : OldConfig) (header : String) : Bool :=
  cfg.count_constraints.any (fun c => header == c.header)

/-- The `is_difference(header)`: exact header match. -/
def is_difference (cfg : OldConfig) (header : String) : Bool :=
  cfg.difference_constraints.any (fun c => header == c.header)

/-- The `get_constraint(header, constraints)`: first constraint with that exact
header, `None` otherwise. -/
def get_constraint {α : Type} (header : String) (cs : List α)
    (hd : α → String) : Option α :=
  cs.find? (fun c => header == hd c)

/-- Digits-to-number accumulator for `parseInt`. -/
def parseDigitsAux : List Char → Nat → Option Nat
  | [], acc => some acc
  | c :: rest, acc =>
    if c.isDigit then parseDigitsAux rest (acc * 10 + (c.toNat - 48)) else none

/-- Python `int()` on the integer literals the sheets are assumed to hold
(the script's stated precondition "Numbers in sheets must be integers"):
an optional minus sign followed by at least one digit; `none` models the
`ValueError` on anything else. -/
def parseInt (s : String) : Option Int :=
  match s.data with
  | [] => none
  | '-' :: rest =>
    match rest with
    | [] => none
    | _ => (parseDigitsAux rest 0).map (fun n => -(n : Int))
  | l => (parseDigitsAux l 0).map (fun n => (n : Int))

/-- The `PreferenceConstraint.is_satisfied(pref)`: `int(pref) <= max_pref`;
`none` when `int()` raises. -/
def PreferenceConstraint.is_satisfied (c : PreferenceConstraint)
    (pref : String) : Option Bool :=
  (parseInt pref).map (fun n => decide (n ≤ c.max_pref))

/-- The `CountConstraint.is_match(value)`: equality against the target string
(a dict value compares unequal to a string in Python). -/
def CountConstraint.is_match (c : CountConstraint) (v : CellValue) : Bool :=
  match v with
  | .scalar s => s == c.value
  | .prefs _ => false

/-- The `CountConstraint.is_satisfied(count)`. -/
def CountConstraint.is_satisfied (c : CountConstraint) (count : Int) : Bool :=
  decide (c.min_count ≤ count ∧ count ≤ c.max_count)

/-- The `CountConstraint.can_be_satisfied(count, availability)`. -/
def CountConstraint.can_be_satisfied (c : CountConstraint)
    (count availability : Int) : Bool :=
  decide (c.min_count ≤ count + availability)

/-- The `JMCountConstraint.is_satisfied` (inherited from `CountConstraint`). -/
def JMCountConstraint.is_satisfied (c : JMCountConstraint) (count : Int) : Bool :=
  decide (c.min_count ≤ count ∧ count ≤ c.max_count)

/-- The `JMCountConstraint.can_be_satisfied(count, availability)` (override):
`count + availability == max_count`. -/
def JMCountConstraint.can_be_satisfied (c : JMCountConstraint)
    (count availability : Int) : Bool :=
  count + availability == c.max_count

/-- The `DifferenceConstraint.is_satisfied(val1, val2)`:
`abs(int(val1) - int(val2)) <= max_diff`; `none` when `int()` raises. -/
def DifferenceConstraint.is_satisfied (c : DifferenceConstraint)
    (v1 v2 : CellValue) : Option Bool :=
  match v1, v2 with
  | .scalar a, .scalar b =>
    match parseInt a, parseInt b with
    | some x, some y => some (decide (((x - y).natAbs : Int) ≤ c.max_diff))
    | _, _ => none
  | _, _ => none

/-- Python dict lookup `m[k]` on a preference dict (`none` = `KeyError`). -/
def dictGet (m : List (String × String)) (k : String) : Option String :=
  (m.find? (fun p => p.1 == k)).map (fun p => p.2)

/-- The preference branch shared by every constraint check:
`get_constraint(...).is_satisfied(dv.value[sm_dv.value])`, with `none` for
each possible runtime error (missing constraint, missing SM data value,
non-dict JM value, missing option key, unparsable rating). -/
def prefDvCheck (cfg : OldConfig) (sms : SMs) (dv : DataValue) : Option Bool :=
  match get_constraint dv.header cfg.preference_constraints
      (fun c => c.header) with
  | none => none
  | some c =>
    match sms.get_datavalue dv.header with
    | none => none
    | some sm_dv =>
      match dv.value, sm_dv.value with
      | .prefs m, .scalar k =>
        match dictGet m k with
        | none => none
        | some pref => c.is_satisfied pref
      | _, _ => none

/-- The difference branch shared by every constraint check. -/
def diffDvCheck (cfg : OldConfig) (sms : SMs) (dv : DataValue) : Option Bool :=
  match get_constraint dv.header cfg.difference_constraints
      (fun c => c.header) with
  | none => none
  | some c =>
    match sms.get_datavalue dv.header with
    | none => none
    | some sm_dv => c.is_satisfied sm_dv.value dv.value

/-- The `sum(constraint.is_match(j.get_datavalue(dv.header).value) for j in jms)`:
`none` models the `AttributeError` when a member lacks the header. -/
def countMatches (c : CountConstraint) (header : String) :
    List JM → Option Nat
  | [] => some 0
  | j :: rest =>
    match j.get_datavalue header with
    | none => none
    | some dv =>
      (countMatches c header rest).map
        (fun n => n + (if c.is_match dv.value then 1 else 0))

/-- Conjunction of a list of checks, as the source's
`compatible = [...]; all(compatible)` pattern: every check is evaluated (an
exception anywhere gives `none`), and the boolean results are conjoined. -/
def checkAll {α : Type} (chk : α → Option Bool) : List α → Bool → Option Bool
  | [], acc => some acc
  | x :: rest, acc =>
    match chk x with
    | none => none
    | some b => checkAll chk rest (acc && b)

/-- The per-data-value body of `jm_steal_check` (and of `full_check`), with
the member count taken over the given list `jms`. -/
def stealDv (cfg : OldConfig) (sms : SMs) (jms : List JM) (dv : DataValue) :
    Option Bool :=
  if is_preference cfg dv.header then prefDvCheck cfg sms dv
  else if is_count cfg dv.header then
    match get_constraint dv.header cfg.count_constraints (fun c => c.header) with
    | none => none
    | some c => (countMatches c dv.header jms).map
        (fun n => c.is_satisfied (n : Int))
  else if is_difference cfg dv.header then diffDvCheck cfg sms dv
  else some true

/-- The `Family.jm_steal_check(jm, jms)` from src/old-matcher.py. -/
def Family.jm_steal_check (cfg : OldConfig) (fam : Family) (jm : JM)
    (jms : List JM) : Option Bool :=
  checkAll (stealDv cfg fam.sms jms) jm.data true

/-- The `Family.get_availability()`. -/
def Family.get_availability (cfg : OldConfig) (fam : Family) : Int :=
  cfg.jm_count_constraint.max_count - (fam.jms.length : Int)

/-- The per-data-value body of `jm_swap_check`: the count branch uses
`is_satisfied` for a COMPLETE family and `can_be_satisfied` otherwise. -/
def swapDv (cfg : OldConfig) (fam : Family) (jms : List JM) (dv : DataValue) :
    Option Bool :=
  if is_preference cfg dv.header then prefDvCheck cfg fam.sms dv
  else if is_count cfg dv.header then
    match get_constraint dv.header cfg.count_constraints (fun c => c.header) with
    | none => none
    | some c => (countMatches c dv.header jms).map
        (fun n =>
          if fam.status == FamilyStatus.COMPLETE then c.is_satisfied (n : Int)
          else c.can_be_satisfied (n : Int) (fam.get_availability cfg))
  else if is_difference cfg dv.header then diffDvCheck cfg fam.sms dv
  else some true

/-- The `Family.jm_swap_check(jm, jms)` from src/old-matcher.py (the
`good_family_size` bool is the first entry of `compatible`). -/
def Family.jm_swap_check (cfg : OldConfig) (fam : Family) (jm : JM)
    (jms : List JM) : Option Bool :=
  checkAll (swapDv cfg fam jms) jm.data
    (cfg.jm_count_constraint.can_be_satisfied ((fam.jms.length : Int))
      (fam.get_availability cfg))

/-- The per-data-value body of `jm_add_check`: the count branch counts over
the current members, adds the candidate's own match, and tests
`can_be_satisfied` with one headroom unit consumed. -/
def addDv (cfg : OldConfig) (fam : Family) (dv : DataValue) : Option Bool :=
  if is_preference cfg dv.header then prefDvCheck cfg fam.sms dv
  else if is_count cfg dv.header then
    match get_constraint dv.header cfg.count_constraints (fun c => c.header) with
    | none => none
    | some c => (countMatches c dv.header fam.jms).map
        (fun n =>
          c.can_be_satisfied ((n : Int) + (if c.is_match dv.value then 1 else 0))
            (max (fam.get_availability cfg - 1) 0))
  else if is_difference cfg dv.header then diffDvCheck cfg fam.sms dv
  else some true

/-- The `Family.jm_add_check(jm)` from src/old-matcher.py. -/
def Family.jm_add_check (cfg : OldConfig) (fam : Family) (jm : JM) :
    Option Bool :=
  checkAll (addDv cfg fam) jm.data
    (cfg.jm_count_constraint.can_be_satisfied ((fam.jms.length : Int) + 1)
      (max (fam.get_availability cfg - 1) 0))

/-- The `Family.full_check` restricted to its inputs: the member loop of
`full_check` over a given membership (the per-data-value body coincides with
the steal check evaluated against the full membership). -/
def fullMembers (cfg : OldConfig) (sms : SMs) (jms : List JM) :
    List JM → Bool → Option Bool
  | [], acc => some acc
  | j :: rest, acc =>
    match checkAll (stealDv cfg sms jms) j.data acc with
    | none => none
    | some acc2 => fullMembers cfg sms jms rest acc2

/-- The `full_check` as a function of the fields it reads (`self.sms`,
`self.jms` and the global constraints); the status field is never read. -/
def full_check_on (cfg : OldConfig) (sms : SMs) (jms : List JM) : Option Bool :=
  fullMembers cfg sms jms jms
    (cfg.jm_count_constraint.is_satisfied ((jms.length : Int)))

/-- The `Family.full_check()` from src/old-matcher.py. -/
def Family.full_check (cfg : OldConfig) (fam : Family) : Option Bool :=
  full_check_on cfg fam.sms fam.jms

/-- The `Family.update_status()` from src/old-matcher.py (`none` when
`full_check` raises). -/
def Family.update_status (cfg : OldConfig) (fam : Family) : Option Family :=
  (fam.full_check cfg).map
    (fun b =>
      { fam with
        status := if b then FamilyStatus.COMPLETE else FamilyStatus.INCOMPLETE })

/-- The `Family.allow_steal(jm)`: every remaining member passes the steal check
against the remaining membership, and the shrunken size is still within the
JM-count bounds.  (`j is not jm` is modelled by structural inequality.) -/
def Family.allow_steal (cfg : OldConfig) (fam : Family) (jm : JM) :
    Option Bool :=
  (checkAll
    (fun j => fam.jm_steal_check cfg j (fam.jms.filter (fun j2 => j2 != jm)))
    (fam.jms.filter (fun j2 => j2 != jm)) true).map
    (fun b => b &&
      cfg.jm_count_constraint.is_satisfied ((fam.jms.length : Int) - 1))

/-- The `Family.allow_swap(jm_outgoing, jm_incoming)`. -/
def Family.allow_swap (cfg : OldConfig) (fam : Family) (jm_out jm_in : JM) :
    Option Bool :=
  checkAll
    (fun j => fam.jm_swap_check cfg j
      (fam.jms.map (fun j2 => if j2 == jm_out then jm_in else j2)))
    (fam.jms.map (fun j2 => if j2 == jm_out then jm_in else j2)) true

/-- The `Family.add_jm(jm)`: append, recompute status; on an exception remove
the (present) JM again, recompute status and report `false`.  The outer
`none` models an exception escaping the `except` block itself. -/
def Family.add_jm (cfg : OldConfig) (fam : Family) (jm : JM) :
    Option (Family × Bool) :=
  match Family.update_status cfg { fam with jms := fam.jms ++ [jm] } with
  | some f2 => some (f2, true)
  | none =>
    (Family.update_status cfg
      (if jm ∈ fam.jms ++ [jm]
       then { fam with jms := (fam.jms ++ [jm]).erase jm }
       else { fam with jms := fam.jms ++ [jm] })).map (fun f3 => (f3, false))

/-- The `except` block of `Family.remove_jm`: re-append the JM when it is
absent, recompute status, report `false`. -/
def removeRollback (cfg : OldConfig) (f : Family) (jm : JM) :
    Option (Family × Bool) :=
  (Family.update_status cfg
    (if jm ∈ f.jms then f else { f with jms := f.jms ++ [jm] })).map
    (fun f2 => (f2, false))

/-- The `Family.remove_jm(jm)`: `list.remove` raises when the JM is absent; an
exception (from the removal or from `update_status`) lands in the `except`
block `removeRollback`. -/
def Family.remove_jm (cfg : OldConfig) (fam : Family) (jm : JM) :
    Option (Family × Bool) :=
  if jm ∈ fam.jms then
    match Family.update_status cfg { fam with jms := fam.jms.erase jm } with
    | some f2 => some (f2, true)
    | none => removeRollback cfg { fam with jms := fam.jms.erase jm } jm
  else removeRollback cfg fam jm

/-- The `except` block of `Family.swap_jm`: re-append the outgoing JM when
absent, remove the incoming JM when present, recompute status, report
`false`. -/
def swapRollback (cfg : OldConfig) (f : Family) (jm_out jm_in : JM) :
    Option (Family × Bool) :=
  (Family.update_status cfg
    (if jm_out ∈ f.jms then
      (if jm_in ∈ f.jms then { f with jms := f.jms.erase jm_in } else f)
     else
      (if jm_in ∈ f.jms ++ [jm_out]
       then { f with jms := (f.jms ++ [jm_out]).erase jm_in }
       else { f with jms := f.jms ++ [jm_out] }))).map (fun f3 => (f3, false))

/-- The `Family.swap_jm(jm_outgoing, jm_incoming)`. -/
def Family.swap_jm (cfg : OldConfig) (fam : Family) (jm_out jm_in : JM) :
    Option (Family × Bool) :=
  if jm_out ∈ fam.jms then
    match Family.update_status cfg
        { fam with jms := fam.jms.erase jm_out ++ [jm_in] } with
    | some f2 => some (f2, true)
    | none =>
      swapRollback cfg { fam with jms := fam.jms.erase jm_out ++ [jm_in] }
        jm_out jm_in
  else swapRollback cfg fam jm_out jm_in

end OldMatcher

namespace OldMatcher

/-- The `FamilyMatcher` from src/old-matcher.py.  The incomplete/complete lists
that the controller passes around hold references to family objects; they are
modelled as lists of indices into `families`. -/
structure FamilyMatcher where
  families : List Family
  stray_jms : List JM
deriving DecidableEq

/-- The `remove` each element of `xs` (first occurrence) from `l`, as the
`for assigned_jm in assigned: self.stray_jms.remove(assigned_jm)` loops. -/
def removeAll {α : Type} [BEq α] (l xs : List α) : List α :=
  xs.foldl (fun acc x => acc.erase x) l

/-- The `FamilyMatcher.split_families_by_status`: partition the family indices by
status, in encounter order. -/
def splitAux : List Family → Nat → List Nat × List Nat
  | [], _ => ([], [])
  | f :: rest, k =>
    let p := splitAux rest (k + 1)
    if f.status == FamilyStatus.COMPLETE then (p.1, k :: p.2)
    else (k :: p.1, p.2)

/-- Index-level `split_families_by_status`. -/
def split_families_by_status (fams : List Family) : List Nat × List Nat :=
  splitAux fams 0

/-- The `promoted` list of `FamilyMatcher.promote_families_by_status`. -/
def promotedIdx (fams : List Family) (inc : List Nat) : List Nat :=
  inc.filter (fun k =>
    match fams.get? k with
    | some f => f.status == FamilyStatus.COMPLETE
    | none => false)

/-- The `FamilyMatcher.promote_families_by_status`: move the indices of families
that have become COMPLETE from the incomplete list to the end of the complete
list. -/
def promote (fams : List Family) (inc comp : List Nat) :
    List Nat × List Nat :=
  (removeAll inc (promotedIdx fams inc), comp ++ promotedIdx fams inc)

/-- The inner family scan of `assign_perfect_fits` for one stray JM: the
index of the first family whose `jm_add_check` passes (`fit_found`
short-circuits the later checks).  Outer `none`: a check raised. -/
def apfScanAux (cfg : OldConfig) (jm : JM) : List Family → Nat →
    Option (Option Nat)
  | [], _ => some none
  | f :: rest, k =>
    match f.jm_add_check cfg jm with
    | none => none
    | some false => apfScanAux cfg jm rest (k + 1)
    | some true => some (some k)

/-- First fitting family index for a stray JM. -/
def apfScan (cfg : OldConfig) (fams : List Family) (jm : JM) :
    Option (Option Nat) :=
  apfScanAux cfg jm fams 0

/-- The stray loop of `assign_perfect_fits`: each stray is placed into its
first fitting family (the `add_jm` result is ignored by the source, and the
JM is recorded as assigned regardless); the accumulated `assigned` list is
removed from the strays afterwards. -/
def apfLoop (cfg : OldConfig) : List JM → List Family → List JM →
    Option (List Family × List JM)
  | [], fams, assigned => some (fams, assigned)
  | j :: rest, fams, assigned =>
    match apfScan cfg fams j with
    | none => none
    | some none => apfLoop cfg rest fams assigned
    | some (some k) =>
      match fams.get? k with
      | none => none
      | some f =>
        match f.add_jm cfg j with
        | none => none
        | some fb => apfLoop cfg rest (fams.set k fb.1) (assigned ++ [j])

/-- The `FamilyMatcher.assign_perfect_fits` from src/old-matcher.py. -/
def assign_perfect_fits (cfg : OldConfig) (m : FamilyMatcher) :
    Option FamilyMatcher :=
  match apfLoop cfg m.stray_jms m.families [] with
  | none => none
  | some p => some ⟨p.1, removeAll m.stray_jms p.2⟩

/-- The stray loop of `perfect_stray_adds` for one incomplete family: add
every stray that passes `jm_add_check` while the family size is still
unsatisfied (the size test short-circuits the check). -/
def psaInner (cfg : OldConfig) : List JM → Family → List JM →
    Option (Family × List JM)
  | [], fam, assigned => some (fam, assigned)
  | j :: rest, fam, assigned =>
    if cfg.jm_count_constraint.is_satisfied ((fam.jms.length : Int)) then
      psaInner cfg rest fam assigned
    else
      match fam.jm_add_check cfg j with
      | none => none
      | some false => psaInner cfg rest fam assigned
      | some true =>
        match fam.add_jm cfg j with
        | none => none
        | some fb => psaInner cfg rest fb.1 (assigned ++ [j])

/-- The incomplete-family loop of `perfect_stray_adds`. -/
def psaLoop (cfg : OldConfig) : List Nat → List Family → List JM →
    Option (List Family × List JM)
  | [], fams, strays => some (fams, strays)
  | k :: rest, fams, strays =>
    match fams.get? k with
    | none => none
    | some fam =>
      match psaInner cfg strays fam [] with
      | none => none
      | some p => psaLoop cfg rest (fams.set k p.1) (removeAll strays p.2)

/-- The `FamilyMatcher.perfect_stray_adds` from src/old-matcher.py. -/
def perfect_stray_adds (cfg : OldConfig) (fams : List Family)
    (strays : List JM) (inc comp : List Nat) :
    Option (List Family × List JM × List Nat × List Nat) :=
  match psaLoop cfg inc fams strays with
  | none => none
  | some p => some (p.1, p.2, (promote p.1 inc comp).1, (promote p.1 inc comp).2)

/-- The member scan of `perfect_steals`: the first member of the donor that
the (size-unsatisfied) receiver may add and the donor may give up (the
`stolen is None` guard short-circuits later members). -/
def stealScan (cfg : OldConfig) (recv donor : Family) : List JM →
    Option (Option JM)
  | [] => some none
  | j :: rest =>
    if cfg.jm_count_constraint.is_satisfied ((recv.jms.length : Int)) then
      stealScan cfg recv donor rest
    else
      match recv.jm_add_check cfg j with
      | none => none
      | some false => stealScan cfg recv donor rest
      | some true =>
        match donor.allow_steal cfg j with
        | none => none
        | some false => stealScan cfg recv donor rest
        | some true => some (some j)

/-- The donor loop of `perfect_steals` for one receiver: scan the complete
families in order; on the first donor yielding a member, add it to the
receiver, remove it from the donor, and `break`. -/
def stealDonors (cfg : OldConfig) (fams : List Family) (ri : Nat) :
    List Nat → Option (List Family)
  | [] => some fams
  | ci :: rest =>
    match fams.get? ri, fams.get? ci with
    | some recv, some donor =>
      match stealScan cfg recv donor donor.jms with
      | none => none
      | some none => stealDonors cfg fams ri rest
      | some (some jm) =>
        match recv.add_jm cfg jm with
        | none => none
        | some rb =>
          let fams1 := fams.set ri rb.1
          match fams1.get? ci with
          | none => none
          | some donor1 =>
            match donor1.remove_jm cfg jm with
            | none => none
            | some db => some (fams1.set ci db.1)
    | _, _ => none

/-- The receiver loop of `perfect_steals`. -/
def pstLoop (cfg : OldConfig) : List Nat → List Family → List Nat →
    Option (List Family)
  | [], fams, _ => some fams
  | ri :: rest, fams, comp =>
    match stealDonors cfg fams ri comp with
    | none => none
    | some fams2 => pstLoop cfg rest fams2 comp

/-- The `FamilyMatcher.perfect_steals` from src/old-matcher.py. -/
def perfect_steals (cfg : OldConfig) (fams : List Family)
    (inc comp : List Nat) : Option (List Family × List Nat × List Nat) :=
  match pstLoop cfg inc fams comp with
  | none => none
  | some fams2 => some (fams2, (promote fams2 inc comp).1, (promote fams2 inc comp).2)

/-- The inner pair scan of `perfect_swaps`: for a fixed member `jm` of the
receiver, the first member of the other family for which both `allow_swap`
calls pass (the `swap_this is None` guard short-circuits later pairs). -/
def swapScanInner (cfg : OldConfig) (fi ff : Family) (jm : JM) : List JM →
    Option (Option JM)
  | [] => some none
  | o :: rest =>
    match fi.allow_swap cfg jm o with
    | none => none
    | some false => swapScanInner cfg fi ff jm rest
    | some true =>
      match ff.allow_swap cfg o jm with
      | none => none
      | some false => swapScanInner cfg fi ff jm rest
      | some true => some (some o)

/-- The outer pair scan of `perfect_swaps` over the receiver's members. -/
def swapScan (cfg : OldConfig) (fi ff : Family) : List JM →
    Option (Option (JM × JM))
  | [] => some none
  | jm :: rest =>
    match swapScanInner cfg fi ff jm ff.jms with
    | none => none
    | some none => swapScan cfg fi ff rest
    | some (some o) => some (some (jm, o))

/-- The family loop of `perfect_swaps` for one incomplete family `ri`:
each other family (by index, including `ri` itself) is scanned for a swap
pair; a found pair is swapped on both sides and the loop continues with the
next family. -/
def swapFamLoop (cfg : OldConfig) (ri : Nat) : List Nat → List Family →
    Option (List Family)
  | [], fams => some fams
  | fi :: rest, fams =>
    match fams.get? ri, fams.get? fi with
    | some famI, some famF =>
      match swapScan cfg famI famF famI.jms with
      | none => none
      | some none => swapFamLoop cfg ri rest fams
      | some (some p) =>
        match famI.swap_jm cfg p.1 p.2 with
        | none => none
        | some ib =>
          let fams1 := fams.set ri ib.1
          match fams1.get? fi with
          | none => none
          | some famF1 =>
            match famF1.swap_jm cfg p.2 p.1 with
            | none => none
            | some fb => swapFamLoop cfg ri rest (fams1.set fi fb.1)
    | _, _ => none

/-- The receiver loop of `perfect_swaps`. -/
def pswLoop (cfg : OldConfig) : List Nat → List Family →
    Option (List Family)
  | [], fams => some fams
  | ri :: rest, fams =>
    match swapFamLoop cfg ri (List.range fams.length) fams with
    | none => none
    | some fams2 => pswLoop cfg rest fams2

/-- The `FamilyMatcher.perfect_swaps` from src/old-matcher.py. -/
def perfect_swaps (cfg : OldConfig) (fams : List Family)
    (inc comp : List Nat) : Option (List Family × List Nat × List Nat) :=
  match pswLoop cfg inc fams with
  | none => none
  | some fams2 => some (fams2, (promote fams2 inc comp).1, (promote fams2 inc comp).2)

/-- The stray scan of `perfect_stray_swaps` for a fixed member `jm`: the
first stray for which `allow_swap(jm, stray)` passes. -/
def strayScanInner (cfg : OldConfig) (f : Family) (jm : JM) : List JM →
    Option (Option JM)
  | [] => some none
  | s :: rest =>
    match f.allow_swap cfg jm s with
    | none => none
    | some false => strayScanInner cfg f jm rest
    | some true => some (some s)

/-- The member scan of `perfect_stray_swaps` over a family's members. -/
def strayScan (cfg : OldConfig) (f : Family) (strays : List JM) :
    List JM → Option (Option (JM × JM))
  | [] => some none
  | jm :: rest =>
    match strayScanInner cfg f jm strays with
    | none => none
    | some none => strayScan cfg f strays rest
    | some (some s) => some (some (jm, s))

/-- The family loop of `perfect_stray_swaps`: a found (member, stray) pair is
swapped into the family and `stray_swap` exchanges the two in the stray
list. -/
def pssLoop (cfg : OldConfig) : List Nat → List Family → List JM →
    Option (List Family × List JM)
  | [], fams, strays => some (fams, strays)
  | k :: rest, fams, strays =>
    match fams.get? k with
    | none => none
    | some f =>
      match strayScan cfg f strays f.jms with
      | none => none
      | some none => pssLoop cfg rest fams strays
      | some (some p) =>
        match f.swap_jm cfg p.1 p.2 with
        | none => none
        | some fb =>
          pssLoop cfg rest (fams.set k fb.1) (strays.erase p.2 ++ [p.1])

/-- The `FamilyMatcher.perfect_stray_swaps` from src/old-matcher.py. -/
def perfect_stray_swaps (cfg : OldConfig) (fams : List Family)
    (strays : List JM) (inc comp : List Nat) :
    Option (List Family × List JM × List Nat × List Nat) :=
  match pssLoop cfg (List.range fams.length) fams strays with
  | none => none
  | some p => some (p.1, p.2, (promote p.1 inc comp).1, (promote p.1 inc comp).2)

/-- One pass of the `iterate` loop body. -/
def fullPass (cfg : OldConfig) (m : FamilyMatcher) : Option FamilyMatcher :=
  match assign_perfect_fits cfg m with
  | none => none
  | some m1 =>
    match perfect_stray_adds cfg m1.families m1.stray_jms
        (split_families_by_status m1.families).1
        (split_families_by_status m1.families).2 with
    | none => none
    | some (fams2, strays2, inc2, comp2) =>
      match perfect_steals cfg fams2 inc2 comp2 with
      | none => none
      | some (fams3, inc3, comp3) =>
        match perfect_swaps cfg fams3 inc3 comp3 with
        | none => none
        | some (fams4, inc4, comp4) =>
          match perfect_stray_swaps cfg fams4 strays2 inc4 comp4 with
          | none => none
          | some (fams5, strays5, _, _) => some ⟨fams5, strays5⟩

/-- The `MAX_ITERS` from src/old-matcher.py. -/
def MAX_ITERS : Nat := 100

/-- The `for _ in range(...)` loop of `FamilyMatcher.iterate`, by fuel. -/
def iterAux (cfg : OldConfig) : Nat → FamilyMatcher → Option FamilyMatcher
  | 0, m => some m
  | n + 1, m =>
    match fullPass cfg m with
    | none => none
    | some m2 => iterAux cfg n m2

/-- The `FamilyMatcher.iterate` from src/old-matcher.py. -/
def iterate (cfg : OldConfig) (m : FamilyMatcher) : Option FamilyMatcher :=
  iterAux cfg MAX_ITERS m

/-- The spec's controller policy, stated independently of the loop shape:
exactly `n` unconditional full passes (in the exception monad), with no early
exit. -/
def passes (cfg : OldConfig) (n : Nat) (m : FamilyMatcher) :
    Option FamilyMatcher :=
  (fun om => om.bind (fullPass cfg))^[n] (some m)

end OldMatcher

namespace Matcher

instance (users : List User) (slots : List Slot) (prefs : List JMPreference)
    (sol : Sol) : Decidable (exactlyOne users slots prefs sol) :=
  inferInstanceAs (Decidable (∀ u ∈ users, userLoad slots prefs sol u.id = 1))

instance (users : List User) (slots : List Slot) (prefs : List JMPreference)
    (config : MatcherConfig) (sol : Sol) :
    Decidable (capacityOk users slots prefs config sol) :=
  inferInstanceAs (Decidable (∀ s ∈ slots,
    config.min_family_size ≤ (slotLoad users prefs sol s.id : Int) ∧
    (slotLoad users prefs sol s.id : Int) ≤ config.max_family_size))

instance (users : List User) (slots : List Slot) (prefs : List JMPreference)
    (config : MatcherConfig) (sol : Sol) :
    Decidable (feasible users slots prefs config sol) :=
  inferInstanceAs (Decidable (exactlyOne users slots prefs sol ∧
    capacityOk users slots prefs config sol))

/-! Concrete instances used to exercise the exact-strategy theorems. -/

/-- A two-user, one-slot instance with both users eligible for the slot. -/
def exUsers : List User := [⟨"a", "A", 0⟩, ⟨"b", "B", 0⟩]

/-- Preferences for `exUsers` (positive ranks for the one slot). -/
def exPrefs : List JMPreference := [⟨"a", "s", 1⟩, ⟨"b", "s", 2⟩]

/-- The single slot of the concrete instance. -/
def exSlots : List Slot := [⟨"s", "t", ["S1", "S2"]⟩]

/-- A configuration demanding exactly two JMs per family. -/
def exConfig : MatcherConfig := ⟨2, 2, 1⟩

/-- The all-true solver valuation. -/
def solAll : Sol := fun _ _ => true

/-- A slot that no user can be matched to (used for infeasibility). -/
def exSlotsMin1 : List Slot := [⟨"s", "t", []⟩]

/-- A configuration with a positive capacity floor. -/
def exConfigMin1 : MatcherConfig := ⟨1, 1, 1⟩

/-- Two distinct user records sharing one identity — the duplicate-identity
malformed input of the spec's error-handling section. -/
def dupUsers : List User := [⟨"a", "Alice", 0⟩, ⟨"a", "Bob", 0⟩]

/-- A preference record referencing a slot id that no slot carries. -/
def unknownPref : JMPreference := ⟨"a", "zz", 1⟩

end Matcher

namespace OldMatcher

/-! Concrete instances used to exercise the heuristic-strategy theorems. -/

/-- The configuration of the script's INPUTS section, with the optional
constraint lists empty: families of 4–5 JMs. -/
def exCfg : OldConfig := ⟨⟨4, 5⟩, [], [], []⟩

/-- A configuration with a wide JM-count range, under which one donor family
can legally lose several members in a single steal pass. -/
def wideCfg : OldConfig := ⟨⟨1, 10⟩, [], [], []⟩

/-- A JM with no constraint data. -/
def mkJM (s : String) : JM := ⟨s, []⟩

/-- An empty family. -/
def emptyFam : Family := ⟨⟨["A1", "A2"], []⟩, [], FamilyStatus.INCOMPLETE⟩

/-- A second empty family. -/
def emptyFam2 : Family := ⟨⟨["B1", "B2"], []⟩, [], FamilyStatus.INCOMPLETE⟩

/-- A donor family with four members. -/
def donorFam : Family :=
  ⟨⟨["D1", "D2"], []⟩, [mkJM "j1", mkJM "j2", mkJM "j3", mkJM "j4"],
    FamilyStatus.COMPLETE⟩

/-- A configuration with one preference constraint with threshold 2. -/
def prefCfg : OldConfig := ⟨⟨4, 5⟩, [⟨"Avail", 2, []⟩], [], []⟩

/-- SM data answering the preference header with option "Mon". -/
def prefSms : SMs := ⟨["S1", "S2"], [⟨"Avail", CellValue.scalar "Mon"⟩]⟩

/-- A JM whose rating for the SM pair's option exceeds the threshold:
ineligible for every family carrying `prefSms`. -/
def badJM : JM := ⟨"Z", [⟨"Avail", CellValue.prefs [("Mon", "5")]⟩]⟩

/-- The family anchored at `prefSms`. -/
def prefFam : Family := ⟨prefSms, [], FamilyStatus.INCOMPLETE⟩

/-- Sms of a family's add and swap checks rejecting a JM whatever the
family's current membership and status are: the operational content of "the
agent has no acceptable preference for this group". -/
def SmsBlocks (cfg : OldConfig) (jm : JM) (s : SMs) : Prop :=
  (∀ jms st, Family.jm_add_check cfg ⟨s, jms, st⟩ jm = some false) ∧
  (∀ jms st ws, Family.jm_swap_check cfg ⟨s, jms, st⟩ jm ws = some false)

/-- The `SmsBlocks` for every family of a list. -/
def FamsBlock (cfg : OldConfig) (jm : JM) (fams : List Family) : Prop :=
  ∀ f ∈ fams, SmsBlocks cfg jm f.sms

end OldMatcher

namespace OldMatcher

/-- C10: removing an absent JM returns `False` yet appends the JM. -/
theorem C10_remove_absent_appends (cfg : OldConfig) (fam : Family) (jm : JM)
    (hnot : jm ∉ fam.jms)
    (hwf : (full_check_on cfg fam.sms (fam.jms ++ [jm])).isSome) :
    ∃ f2, Family.remove_jm cfg fam jm = some (f2, false) ∧
      f2.jms = fam.jms ++ [jm] ∧ jm ∈ f2.jms ∧
      fam.jms.length < f2.jms.length := by
  rcases Option.isSome_iff_exists.mp hwf with ⟨b, hb⟩
  refine ⟨⟨fam.sms, fam.jms ++ [jm],
    if b then FamilyStatus.COMPLETE else FamilyStatus.INCOMPLETE⟩, ?_, rfl, ?_, ?_⟩
  · unfold Family.remove_jm removeRollback Family.update_status Family.full_check
    rw [if_neg hnot, if_neg hnot]
    simp [hb]
  · simp
  · simp

end OldMatcher

namespace OldMatcher

/-- C5: at the failing input — removing an absent JM from an empty family —
the rejected mutation (reported `False`) does not leave the membership
byte-for-byte unchanged: the rollback appends the absent JM. -/
theorem C5_rejected_remove_mutates :
    Family.remove_jm exCfg emptyFam (mkJM "x") =
      some (⟨emptyFam.sms, [mkJM "x"], FamilyStatus.INCOMPLETE⟩, false) ∧
    ([mkJM "x"] : List JM) ≠ emptyFam.jms := by
  constructor
  · rfl
  · decide

/-- C6: status is a pure function of membership + constraints. -/
theorem C6_status_pure_function :
    (∀ cfg sms jms s1 s2,
      Family.full_check cfg ⟨sms, jms, s1⟩ = Family.full_check cfg ⟨sms, jms, s2⟩)
    ∧ (∀ cfg (f f2 : Family), Family.update_status cfg f = some f2 →
        Family.full_check cfg f2 = Family.full_check cfg f ∧
        Family.update_status cfg f2 = some f2 ∧
        (f2.status = FamilyStatus.COMPLETE ↔ Family.full_check cfg f = some true)) := by
  constructor
  · intro cfg sms jms s1 s2; rfl
  · intro cfg f f2 h
    unfold Family.update_status at h
    rcases Option.map_eq_some'.mp h with ⟨b, hb, hf2⟩
    subst hf2
    refine ⟨rfl, ?_, ?_⟩
    · unfold Family.update_status
      have hb2 : Family.full_check cfg
          { f with status := if b = true then FamilyStatus.COMPLETE
                             else FamilyStatus.INCOMPLETE } = some b := hb
      rw [hb2]
      rfl
    · rw [hb]
      cases b <;> simp

/-- C6 witness. -/
theorem C6_status_pure_function_witness :
    Family.full_check exCfg emptyFam = Family.full_check exCfg emptyFam ∧
    Family.update_status exCfg emptyFam = some emptyFam ∧
    (emptyFam.status = FamilyStatus.COMPLETE ↔
      Family.full_check exCfg emptyFam = some true) :=
  (C6_status_pure_function).2 exCfg emptyFam emptyFam (by decide)

end OldMatcher

namespace Matcher

/-- Summing a 0/1 indicator over a list counts the filtered elements. -/
theorem sum_map_ite {α : Type} (l : List α) (p : α → Bool) :
    (l.map (fun a => if p a then (1 : Nat) else 0)).sum = (l.filter p).length := by
  induction l with
  | nil => rfl
  | cons x xs ih =>
    by_cases hx : p x
    · simp [List.filter_cons, hx, ih, Nat.add_comm]
    · simp [List.filter_cons, hx, ih]

/-- The per-user sum of solved values counts the slots whose variable is
selected. -/
theorem userLoad_eq_filter_length (slots : List Slot)
    (prefs : List JMPreference) (sol : Sol) (uid : String) :
    userLoad slots prefs sol uid =
      (slots.filter (fun s => isVariable prefs uid s.id && sol uid s.id)).length :=
  sum_map_ite slots _

/-- The per-slot sum of solved values counts the users whose variable for the
slot is selected. -/
theorem slotLoad_eq_filter_length (users : List User)
    (prefs : List JMPreference) (sol : Sol) (sid : String) :
    slotLoad users prefs sol sid =
      (users.filter (fun u => isVariable prefs u.id sid && sol u.id sid)).length :=
  sum_map_ite users _

/-- The `slots_by_id` lookup succeeds for the id of a listed slot and returns a
slot carrying that id. -/
theorem slotsById_of_mem (slots : List Slot) (a : Slot) (ha : a ∈ slots) :
    ∃ s2, slotsById slots a.id = some s2 ∧ s2.id = a.id := by
  have hex : ∃ x, x ∈ slots.reverse ∧ (x.id == a.id) = true :=
    ⟨a, List.mem_reverse.mpr ha, by simp⟩
  have hsome : (slots.reverse.find? (fun s => s.id == a.id)).isSome :=
    List.find?_isSome.mpr hex
  rcases Option.isSome_iff_exists.mp hsome with ⟨s2, hs2⟩
  exact ⟨s2, hs2, by simpa using List.find?_some hs2⟩

/-- When a user's exactly-one constraint holds, its selected-slot filter is a
singleton and the extraction returns the slot registered under that id. -/
theorem extractUser_of_userLoad_one (prefs : List JMPreference)
    (slots : List Slot) (sol : Sol) (uid : String)
    (h : userLoad slots prefs sol uid = 1) :
    ∃ a s2, slots.filter (fun s => isVariable prefs uid s.id && sol uid s.id) = [a]
      ∧ a ∈ slots ∧ extractUser prefs slots sol uid = some s2 ∧ s2.id = a.id := by
  rw [userLoad_eq_filter_length] at h
  rcases List.length_eq_one.mp h with ⟨a, ha⟩
  have hamem : a ∈ slots := by
    have : a ∈ slots.filter (fun s => isVariable prefs uid s.id && sol uid s.id) := by
      rw [ha]; exact List.mem_singleton.mpr rfl
    exact (List.mem_filter.mp this).1
  rcases slotsById_of_mem slots a hamem with ⟨s2, hs2, hid⟩
  refine ⟨a, s2, ha, hamem, ?_, hid⟩
  unfold extractUser matchedSlotIds
  rw [ha]
  simp [hs2]

/-- Extraction succeeds for every user when each user's exactly-one
constraint holds. -/
theorem extractAll_isSome (prefs : List JMPreference) (slots : List Slot)
    (sol : Sol) (users : List User)
    (h : ∀ u ∈ users, (extractUser prefs slots sol u.id).isSome) :
    ∃ m, extractAll prefs slots sol users = some m := by
  induction users with
  | nil => exact ⟨[], rfl⟩
  | cons u rest ih =>
    rcases Option.isSome_iff_exists.mp (h u (List.mem_cons_self u rest)) with ⟨s, hs⟩
    rcases ih (fun v hv => h v (List.mem_cons_of_mem u hv)) with ⟨m, hm⟩
    exact ⟨(u.id, s) :: m, by unfold extractAll; rw [hs, hm]⟩

/-- In an extracted mapping, a listed user's lookup is its extraction. -/
theorem lookup_extractAll (prefs : List JMPreference) (slots : List Slot)
    (sol : Sol) (users : List User) (m : List (String × Slot))
    (hm : extractAll prefs slots sol users = some m) :
    ∀ u ∈ users, lookupAssignment m u.id = extractUser prefs slots sol u.id := by
  induction users generalizing m with
  | nil => intro u hu; cases hu
  | cons u0 rest ih =>
    intro u hu
    unfold extractAll at hm
    rcases he : extractUser prefs slots sol u0.id with _ | s0 <;> rw [he] at hm
    · cases hm
    rcases hr : extractAll prefs slots sol rest with _ | m0 <;> rw [hr] at hm
    · cases hm
    cases hm
    rcases List.mem_cons.mp hu with rfl | hu2
    · unfold lookupAssignment
      simp [he]
    · by_cases hid : u.id = u0.id
      · unfold lookupAssignment
        rw [hid]
        simp [he, hid]
      · unfold lookupAssignment
        rw [List.find?_cons_of_neg]
        · exact ih m0 hr u hu2
        · simp only [beq_iff_eq]
          exact fun hh => hid hh.symm

/-- Any value in an extracted mapping comes from the extraction of its key. -/
theorem lookup_extractAll_inv (prefs : List JMPreference) (slots : List Slot)
    (sol : Sol) (users : List User) (m : List (String × Slot))
    (hm : extractAll prefs slots sol users = some m) (uid : String) (s2 : Slot)
    (h : lookupAssignment m uid = some s2) :
    extractUser prefs slots sol uid = some s2 := by
  induction users generalizing m with
  | nil =>
    unfold extractAll at hm
    cases hm
    cases h
  | cons u0 rest ih =>
    unfold extractAll at hm
    rcases he : extractUser prefs slots sol u0.id with _ | s0 <;> rw [he] at hm
    · cases hm
    rcases hr : extractAll prefs slots sol rest with _ | m0 <;> rw [hr] at hm
    · cases hm
    cases hm
    unfold lookupAssignment at h
    by_cases hid : u0.id = uid
    · rw [List.find?_cons_of_pos] at h
      · have hs : s0 = s2 := Option.some.inj h
        subst hs
        rw [← hid]
        exact he
      · simp only [beq_iff_eq]
        exact hid
    · rw [List.find?_cons_of_neg] at h
      · exact ih m0 hr h
      · simp [hid]

/-- A successfully extracted slot always carries a strictly positive recorded
preference for its user. -/
theorem extractUser_pos_pref (prefs : List JMPreference) (slots : List Slot)
    (sol : Sol) (uid : String) (s2 : Slot)
    (h : extractUser prefs slots sol uid = some s2) :
    0 < prefGet prefs uid s2.id := by
  unfold extractUser at h
  rcases hm : matchedSlotIds prefs slots sol uid with _ | ⟨x, xs⟩ <;> rw [hm] at h
  · cases h
  rcases xs with _ | ⟨y, ys⟩
  · have hx : x ∈ matchedSlotIds prefs slots sol uid := by
      rw [hm]; exact List.mem_singleton.mpr rfl
    unfold matchedSlotIds at hx
    rw [List.mem_dedup] at hx
    rcases List.mem_map.mp hx with ⟨a, hamem, haid⟩
    have hpred := (List.mem_filter.mp hamem).2
    rw [Bool.and_eq_true] at hpred
    have hvar : isVariable prefs uid a.id = true := hpred.1
    have hs2id : s2.id = x := by
      have := List.find?_some h
      simpa using this
    rw [hs2id, ← haid]
    exact of_decide_eq_true hvar
  · cases h

end Matcher

namespace Matcher

/-- C2: an absent or non-positive recorded preference fixes the decision
variable at zero, and the returned assignment never maps the agent to that
slot. -/
theorem C2_ineligible_pair_never_assigned (prefs : List JMPreference)
    (uid sid : String) (h : prefGet prefs uid sid ≤ 0) :
    (∀ sol, assignVal prefs sol uid sid = 0) ∧
    (∀ users slots config solverOut m s2,
      run_matcher users prefs slots config solverOut = some m →
      lookupAssignment m uid = some s2 → s2.id ≠ sid) := by
  constructor
  · intro sol
    unfold assignVal isVariable
    simp [not_lt.mpr h]
  · intro users slots config solverOut m s2 hrun hlook
    rcases solverOut with _ | sol
    · cases hrun
    have hex : extractUser prefs slots sol uid = some s2 :=
      lookup_extractAll_inv prefs slots sol users m hrun uid s2 hlook
    have hpos := extractUser_pos_pref prefs slots sol uid s2 hex
    intro heq
    rw [heq] at hpos
    omega

/-- C2 witness: agent "a" has no recorded preference for "zz", its solved
value there is zero, and the slot the concrete solve returns for it is not
"zz". -/
theorem C2_ineligible_pair_never_assigned_witness :
    assignVal exPrefs solAll "a" "zz" = 0 ∧
    (Slot.mk "s" "t" ["S1", "S2"]).id ≠ "zz" :=
  ⟨(C2_ineligible_pair_never_assigned exPrefs "a" "zz" (by decide)).1 solAll,
   (C2_ineligible_pair_never_assigned exPrefs "a" "zz" (by decide)).2
     exUsers exSlots exConfig (some solAll)
     [("a", ⟨"s", "t", ["S1", "S2"]⟩), ("b", ⟨"s", "t", ["S1", "S2"]⟩)]
     ⟨"s", "t", ["S1", "S2"]⟩ rfl rfl⟩

/-- Every listed user's extraction succeeds when the whole extraction does. -/
theorem extractAll_forall_isSome (prefs : List JMPreference)
    (slots : List Slot) (sol : Sol) (users : List User)
    (m : List (String × Slot))
    (hm : extractAll prefs slots sol users = some m) :
    ∀ u ∈ users, (extractUser prefs slots sol u.id).isSome := by
  induction users generalizing m with
  | nil => intro u hu; cases hu
  | cons u0 rest ih =>
    intro u hu
    unfold extractAll at hm
    rcases he : extractUser prefs slots sol u0.id with _ | s0 <;> rw [he] at hm
    · cases hm
    rcases hr : extractAll prefs slots sol rest with _ | m0 <;> rw [hr] at hm
    · cases hm
    rcases List.mem_cons.mp hu with rfl | hu2
    · rw [he]; rfl
    · exact ih m0 hr u hu2

/-- C3: an infeasible exact solve surfaces an error (no mapping), and any
returned mapping is total over the input agents. -/
theorem C3_infeasible_surfaces_error (users : List User)
    (prefs : List JMPreference) (slots : List Slot) (config : MatcherConfig) :
    ((∀ sol, ¬ feasible users slots prefs config sol) →
      ∀ solverOut : Option Sol,
        (∀ sol, solverOut = some sol → feasible users slots prefs config sol) →
        run_matcher users prefs slots config solverOut = none)
    ∧ (∀ solverOut m, run_matcher users prefs slots config solverOut = some m →
        ∀ u ∈ users, ∃ s, lookupAssignment m u.id = some s) := by
  constructor
  · intro hinf solverOut hsound
    rcases solverOut with _ | sol
    · rfl
    · exact absurd (hsound sol rfl) (hinf sol)
  · intro solverOut m hrun u hu
    rcases solverOut with _ | sol
    · cases hrun
    have hsome := extractAll_forall_isSome prefs slots sol users m hrun u hu
    rcases Option.isSome_iff_exists.mp hsome with ⟨s, hs⟩
    refine ⟨s, ?_⟩
    rw [lookup_extractAll prefs slots sol users m hrun u hu, hs]

/-- C3 witness: an instance with a positive capacity floor and no users has
no feasible assignment, and the solve reports an error. -/
theorem C3_infeasible_surfaces_error_witness :
    run_matcher [] [] exSlotsMin1 exConfigMin1 none = none :=
  (C3_infeasible_surfaces_error [] [] exSlotsMin1 exConfigMin1).1
    (fun sol hf => by
      have h1 := (hf.2 ⟨"s", "t", []⟩ (by decide)).1
      have h0 : slotLoad ([] : List User) [] sol "s" = 0 := rfl
      rw [h0] at h1
      exact absurd h1 (by decide))
    none (fun sol hsol => by cases hsol)

/-- Under the exactly-one constraints, the count of agents extracted into a
slot equals the formulation's per-slot load. -/
theorem assignedCount_eq_slotLoad (users : List User)
    (prefs : List JMPreference) (slots : List Slot) (sol : Sol)
    (m : List (String × Slot))
    (hm : extractAll prefs slots sol users = some m)
    (hone : ∀ u ∈ users, userLoad slots prefs sol u.id = 1)
    (s0 : Slot) (hs0 : s0 ∈ slots) :
    assignedCount users m s0.id = slotLoad users prefs sol s0.id := by
  rw [slotLoad_eq_filter_length]
  unfold assignedCount
  congr 1
  apply List.filter_congr
  intro u hu
  rcases extractUser_of_userLoad_one prefs slots sol u.id (hone u hu) with
    ⟨a, s2, hfil, _, hext, hid⟩
  have hlook : lookupAssignment m u.id = some s2 := by
    rw [lookup_extractAll prefs slots sol users m hm u hu, hext]
  rw [hlook]
  by_cases hsel : (isVariable prefs u.id s0.id && sol u.id s0.id) = true
  · have hs0fil : s0 ∈ slots.filter
        (fun s => isVariable prefs u.id s.id && sol u.id s.id) :=
      List.mem_filter.mpr ⟨hs0, hsel⟩
    rw [hfil] at hs0fil
    have ha : s0 = a := List.mem_singleton.mp hs0fil
    rw [hsel]
    simp only [Option.map_some']
    rw [hid, ← ha]
    simp
  · have hne : s2.id ≠ s0.id := by
      intro heq
      apply hsel
      have haf : a ∈ slots.filter
          (fun s => isVariable prefs u.id s.id && sol u.id s.id) := by
        rw [hfil]; exact List.mem_singleton.mpr rfl
      have hpred := (List.mem_filter.mp haf).2
      have haid : a.id = s0.id := by rw [← hid, heq]
      rw [← haid]
      exact hpred
    rw [Bool.eq_false_iff.mpr hsel]
    simp only [Option.map_some']
    apply beq_eq_false_iff_ne.mpr
    intro hsome
    exact hne (Option.some.inj hsome)

/-- C1: the mapping returned by a successful exact solve is total, each agent
gets exactly one slot, and every slot's agent count lies within the
configured family-size bounds. -/
theorem C1_exact_result_hard_constraints (users : List User)
    (prefs : List JMPreference) (slots : List Slot) (config : MatcherConfig)
    (sol : Sol) (hf : feasible users slots prefs config sol) :
    ∃ m, run_matcher users prefs slots config (some sol) = some m ∧
      (∀ u ∈ users, ∃ s, lookupAssignment m u.id = some s) ∧
      (∀ s ∈ slots,
        config.min_family_size ≤ (assignedCount users m s.id : Int) ∧
        (assignedCount users m s.id : Int) ≤ config.max_family_size) := by
  rcases hf with ⟨hone, hcap⟩
  have hsome : ∀ u ∈ users, (extractUser prefs slots sol u.id).isSome := by
    intro u hu
    rcases extractUser_of_userLoad_one prefs slots sol u.id (hone u hu) with
      ⟨a, s2, _, _, hext, _⟩
    rw [hext]; rfl
  rcases extractAll_isSome prefs slots sol users hsome with ⟨m, hm⟩
  refine ⟨m, hm, ?_, ?_⟩
  · intro u hu
    rcases Option.isSome_iff_exists.mp (hsome u hu) with ⟨s, hs⟩
    exact ⟨s, by rw [lookup_extractAll prefs slots sol users m hm u hu, hs]⟩
  · intro s hs
    rw [assignedCount_eq_slotLoad users prefs slots sol m hm hone s hs]
    exact hcap s hs

/-- C1 witness. -/
theorem C1_exact_result_hard_constraints_witness :
    ∃ m, run_matcher exUsers exPrefs exSlots exConfig (some solAll) = some m ∧
      (∀ u ∈ exUsers, ∃ s, lookupAssignment m u.id = some s) ∧
      (∀ s ∈ exSlots,
        exConfig.min_family_size ≤ (assignedCount exUsers m s.id : Int) ∧
        (assignedCount exUsers m s.id : Int) ≤ exConfig.max_family_size) :=
  C1_exact_result_hard_constraints exUsers exPrefs exSlots exConfig solAll
    (by decide)

end Matcher

namespace Matcher

/-- C9 counterexample: the duplicate-agent-identity malformed input is not
rejected — the exact solve proceeds and returns a mapping. -/
theorem C9_duplicate_identity_not_rejected :
    feasible dupUsers exSlotsMin1 [⟨"a", "s", 1⟩] exConfig solAll ∧
    (run_matcher dupUsers [⟨"a", "s", 1⟩] exSlotsMin1 exConfig
      (some solAll)).isSome = true := by
  constructor
  · decide
  · rfl

/-- A preference record whose slot id differs leaves the recorded preference
of a pair unchanged. -/
theorem prefGet_append_unknown (prefs : List JMPreference) (p : JMPreference)
    (uid sid : String) (h : sid ≠ p.slot_id) :
    prefGet (prefs ++ [p]) uid sid = prefGet prefs uid sid := by
  unfold prefGet prefFind
  rw [List.reverse_append]
  simp only [List.reverse_cons, List.reverse_nil, List.nil_append,
    List.singleton_append]
  rw [List.find?_cons_of_neg]
  simp only [Bool.and_eq_true, beq_iff_eq, not_and]
  intro _ hs
  exact h hs.symm

/-- Solved values are unchanged by an unknown-slot preference record. -/
theorem assignVal_append_unknown (prefs : List JMPreference)
    (p : JMPreference) (sol : Sol) (uid sid : String) (h : sid ≠ p.slot_id) :
    assignVal (prefs ++ [p]) sol uid sid = assignVal prefs sol uid sid := by
  unfold assignVal isVariable
  rw [prefGet_append_unknown prefs p uid sid h]

/-- Extraction is unchanged by an unknown-slot preference record. -/
theorem extractUser_append_unknown (prefs : List JMPreference)
    (p : JMPreference) (slots : List Slot) (sol : Sol) (uid : String)
    (hslots : ∀ s ∈ slots, s.id ≠ p.slot_id) :
    extractUser (prefs ++ [p]) slots sol uid = extractUser prefs slots sol uid := by
  unfold extractUser matchedSlotIds
  rw [List.filter_congr (fun s hs => ?_)]
  unfold isVariable
  rw [prefGet_append_unknown prefs p uid s.id (hslots s hs)]

end Matcher

namespace Matcher

/-- C9 (amended): no fail-fast validation exists; a preference referencing an
unknown slot is silently ignored — the solve result and the feasible set are
exactly those of the input without it. -/
theorem C9_unknown_reference_ignored (users : List User)
    (prefs : List JMPreference) (slots : List Slot) (config : MatcherConfig)
    (p : JMPreference) (sol : Sol)
    (hslots : ∀ s ∈ slots, s.id ≠ p.slot_id) :
    run_matcher users (prefs ++ [p]) slots config (some sol) =
      run_matcher users prefs slots config (some sol) ∧
    (feasible users slots (prefs ++ [p]) config sol ↔
      feasible users slots prefs config sol) := by
  have hval : ∀ uid sid, sid ≠ p.slot_id →
      assignVal (prefs ++ [p]) sol uid sid = assignVal prefs sol uid sid :=
    fun uid sid h => assignVal_append_unknown prefs p sol uid sid h
  constructor
  · show extractAll (prefs ++ [p]) slots sol users = extractAll prefs slots sol users
    induction users with
    | nil => rfl
    | cons u rest ih =>
      unfold extractAll
      rw [extractUser_append_unknown prefs p slots sol u.id hslots, ih]
  · have huser : ∀ uid, userLoad slots (prefs ++ [p]) sol uid =
        userLoad slots prefs sol uid := by
      intro uid
      unfold userLoad
      exact congrArg List.sum
        (List.map_congr_left (fun s hs => hval uid s.id (hslots s hs)))
    have hslot : ∀ sid, sid ≠ p.slot_id →
        slotLoad users (prefs ++ [p]) sol sid = slotLoad users prefs sol sid := by
      intro sid hsid
      unfold slotLoad
      exact congrArg List.sum
        (List.map_congr_left (fun u _ => hval u.id sid hsid))
    unfold feasible exactlyOne capacityOk
    constructor
    · rintro ⟨h1, h2⟩
      refine ⟨fun u hu => ?_, fun s hs => ?_⟩
      · rw [← huser u.id]; exact h1 u hu
      · rw [← hslot s.id (hslots s hs)]; exact h2 s hs
    · rintro ⟨h1, h2⟩
      refine ⟨fun u hu => ?_, fun s hs => ?_⟩
      · rw [huser u.id]; exact h1 u hu
      · rw [hslot s.id (hslots s hs)]; exact h2 s hs

/-- C9 (amended) witness. -/
theorem C9_unknown_reference_ignored_witness :
    run_matcher exUsers (exPrefs ++ [unknownPref]) exSlots exConfig (some solAll) =
      run_matcher exUsers exPrefs exSlots exConfig (some solAll) ∧
    (feasible exUsers exSlots (exPrefs ++ [unknownPref]) exConfig solAll ↔
      feasible exUsers exSlots exPrefs exConfig solAll) :=
  C9_unknown_reference_ignored exUsers exPrefs exSlots exConfig unknownPref
    solAll (by decide)

end Matcher


namespace OldMatcher

/-- The `update_status` only changes the status field. -/
theorem update_status_fields (cfg : OldConfig) (f f2 : Family)
    (h : Family.update_status cfg f = some f2) :
    f2.sms = f.sms ∧ f2.jms = f.jms := by
  rcases Option.map_eq_some'.mp h with ⟨b, _, hf2⟩
  subst hf2
  exact ⟨rfl, rfl⟩

/-- The `add_jm` never changes the SM data. -/
theorem add_jm_sms (cfg : OldConfig) (f : Family) (jm : JM) (f2 : Family)
    (b : Bool) (h : Family.add_jm cfg f jm = some (f2, b)) : f2.sms = f.sms := by
  unfold Family.add_jm at h
  rcases hu : Family.update_status cfg { f with jms := f.jms ++ [jm] } with _ | f3
  · rw [hu] at h
    dsimp only at h
    split at h
    all_goals
      rcases Option.map_eq_some'.mp h with ⟨f4, hf4, hpair⟩
      cases hpair
      exact (update_status_fields cfg _ _ hf4).1
  · rw [hu] at h
    dsimp only at h
    cases h
    exact (update_status_fields cfg _ _ hu).1

/-- The `removeRollback` never changes the SM data. -/
theorem removeRollback_sms (cfg : OldConfig) (f : Family) (jm : JM)
    (f2 : Family) (b : Bool) (h : removeRollback cfg f jm = some (f2, b)) :
    f2.sms = f.sms := by
  unfold removeRollback at h
  split at h
  all_goals
    rcases Option.map_eq_some'.mp h with ⟨f4, hf4, hpair⟩
    cases hpair
    exact (update_status_fields cfg _ _ hf4).1

/-- The `remove_jm` never changes the SM data. -/
theorem remove_jm_sms (cfg : OldConfig) (f : Family) (jm : JM) (f2 : Family)
    (b : Bool) (h : Family.remove_jm cfg f jm = some (f2, b)) : f2.sms = f.sms := by
  unfold Family.remove_jm at h
  split at h
  · rcases hu : Family.update_status cfg { f with jms := f.jms.erase jm } with _ | f3
    · rw [hu] at h
      dsimp only at h
      have hs := removeRollback_sms cfg _ jm f2 b h
      exact hs
    · rw [hu] at h
      dsimp only at h
      cases h
      exact (update_status_fields cfg _ _ hu).1
  · exact removeRollback_sms cfg _ jm f2 b h

/-- The `swapRollback` never changes the SM data. -/
theorem swapRollback_sms (cfg : OldConfig) (f : Family) (jm_out jm_in : JM)
    (f2 : Family) (b : Bool)
    (h : swapRollback cfg f jm_out jm_in = some (f2, b)) : f2.sms = f.sms := by
  unfold swapRollback at h
  split at h
  all_goals split at h
  all_goals
    rcases Option.map_eq_some'.mp h with ⟨f4, hf4, hpair⟩
    cases hpair
    exact (update_status_fields cfg _ _ hf4).1

/-- The `swap_jm` never changes the SM data. -/
theorem swap_jm_sms (cfg : OldConfig) (f : Family) (jm_out jm_in : JM)
    (f2 : Family) (b : Bool)
    (h : Family.swap_jm cfg f jm_out jm_in = some (f2, b)) : f2.sms = f.sms := by
  unfold Family.swap_jm at h
  split at h
  · rcases hu : Family.update_status cfg
        { f with jms := f.jms.erase jm_out ++ [jm_in] } with _ | f3
    · rw [hu] at h
      dsimp only at h
      have hs := swapRollback_sms cfg _ jm_out jm_in f2 b h
      exact hs
    · rw [hu] at h
      dsimp only at h
      cases h
      exact (update_status_fields cfg _ _ hu).1
  · exact swapRollback_sms cfg _ jm_out jm_in f2 b h

end OldMatcher

namespace OldMatcher

/-- A false accumulator can never recover: the conjunction stays false (or an
exception occurs). -/
theorem checkAll_acc_false {α : Type} (chk : α → Option Bool) (l : List α) :
    checkAll chk l false = none ∨ checkAll chk l false = some false := by
  induction l with
  | nil => exact Or.inr rfl
  | cons x rest ih =>
    unfold checkAll
    rcases hc : chk x with _ | b
    · exact Or.inl rfl
    · simpa using ih

/-- If some listed check is `some false`, the conjunction is `none` or
`some false`, never `some true`. -/
theorem checkAll_mem_false {α : Type} (chk : α → Option Bool) (l : List α)
    (x : α) (hx : x ∈ l) (hfx : chk x = some false) :
    ∀ acc, checkAll chk l acc = none ∨ checkAll chk l acc = some false := by
  induction l with
  | nil => cases hx
  | cons y rest ih =>
    intro acc
    unfold checkAll
    rcases List.mem_cons.mp hx with rfl | hx2
    · rw [hfx]
      simpa using checkAll_acc_false chk rest
    · rcases hc : chk y with _ | b
      · exact Or.inl rfl
      · exact ih hx2 (acc && b)

/-- An `SmsBlocks` hypothesis applies to any family carrying those sms. -/
theorem smsBlocks_add_check (cfg : OldConfig) (jm : JM) (f : Family)
    (h : SmsBlocks cfg jm f.sms) : Family.jm_add_check cfg f jm = some false :=
  h.1 f.jms f.status

/-- The swap check of a blocked JM is false for any membership argument. -/
theorem smsBlocks_swap_check (cfg : OldConfig) (jm : JM) (f : Family)
    (ws : List JM) (h : SmsBlocks cfg jm f.sms) :
    Family.jm_swap_check cfg f jm ws = some false :=
  h.2 f.jms f.status ws

/-- Swapping a blocked JM into a family can never be allowed: the blocked
incoming JM is itself one of the members checked by `allow_swap`. -/
theorem allow_swap_incoming_blocked (cfg : OldConfig) (f : Family)
    (jm_out jm : JM) (h : SmsBlocks cfg jm f.sms) (hout : jm_out ∈ f.jms) :
    Family.allow_swap cfg f jm_out jm = none ∨
    Family.allow_swap cfg f jm_out jm = some false := by
  unfold Family.allow_swap
  exact checkAll_mem_false _ _ jm
    (List.mem_map.mpr ⟨jm_out, hout, by simp⟩)
    (smsBlocks_swap_check cfg jm f _ h) true

/-- A family from a blocked list is blocked. -/
theorem famsBlock_get (cfg : OldConfig) (jm : JM) (fams : List Family)
    (k : Nat) (f : Family) (hb : FamsBlock cfg jm fams)
    (h : fams.get? k = some f) : SmsBlocks cfg jm f.sms :=
  hb f (List.get?_mem h)

/-- Replacing a family by one with the same sms keeps the list blocked. -/
theorem famsBlock_set (cfg : OldConfig) (jm : JM) (fams : List Family)
    (k : Nat) (f f2 : Family) (hb : FamsBlock cfg jm fams)
    (hget : fams.get? k = some f) (hsms : f2.sms = f.sms) :
    FamsBlock cfg jm (fams.set k f2) := by
  intro g hg
  rcases List.mem_or_eq_of_mem_set hg with hg2 | rfl
  · exact hb g hg2
  · rw [hsms]
    exact famsBlock_get cfg jm fams k f hb hget

end OldMatcher

namespace OldMatcher

/-- A blocked JM finds no fitting family. -/
theorem apfScanAux_blocked (cfg : OldConfig) (jm : JM) (fams : List Family)
    (hb : ∀ f ∈ fams, SmsBlocks cfg jm f.sms) :
    ∀ k, apfScanAux cfg jm fams k = some none := by
  induction fams with
  | nil => intro k; rfl
  | cons f rest ih =>
    intro k
    unfold apfScanAux
    rw [smsBlocks_add_check cfg jm f (hb f (List.mem_cons_self f rest))]
    exact ih (fun g hg => hb g (List.mem_cons_of_mem f hg)) (k + 1)

/-- A JM absent from every removed batch survives `removeAll`. -/
theorem mem_removeAll_of_ne {α : Type} [DecidableEq α] (xs : List α) :
    ∀ (l : List α) (a : α), a ∈ l → (∀ x ∈ xs, x ≠ a) → a ∈ removeAll l xs := by
  induction xs with
  | nil => intro l a ha _; exact ha
  | cons x rest ih =>
    intro l a ha hxs
    have hax : a ∈ l.erase x := by
      rw [List.mem_erase_of_ne]
      · exact ha
      · exact fun he => (hxs x (List.mem_cons_self x rest)) he.symm
    exact ih (l.erase x) a hax (fun y hy => hxs y (List.mem_cons_of_mem x hy))

/-- The stray loop of `assign_perfect_fits` keeps the family list blocked and
never marks a blocked JM as assigned. -/
theorem apfLoop_blocked (cfg : OldConfig) (jm : JM) (strays : List JM) :
    ∀ fams assigned fams2 asg2,
      FamsBlock cfg jm fams → (∀ x ∈ assigned, x ≠ jm) →
      apfLoop cfg strays fams assigned = some (fams2, asg2) →
      FamsBlock cfg jm fams2 ∧ (∀ x ∈ asg2, x ≠ jm) := by
  induction strays with
  | nil =>
    intro fams assigned fams2 asg2 hb hasg h
    unfold apfLoop at h
    cases h
    exact ⟨hb, hasg⟩
  | cons j rest ih =>
    intro fams assigned fams2 asg2 hb hasg h
    unfold apfLoop at h
    by_cases hj : j = jm
    · subst hj
      rw [show apfScan cfg fams j = some none from
        apfScanAux_blocked cfg j fams hb 0] at h
      try dsimp only at h
      exact ih fams assigned fams2 asg2 hb hasg h
    · rcases hscan : apfScan cfg fams j with _ | ores <;> rw [hscan] at h <;>
        try dsimp only at h
      · cases h
      rcases ores with _ | k <;> try dsimp only at h
      · exact ih fams assigned fams2 asg2 hb hasg h
      rcases hget : fams.get? k with _ | f <;> rw [hget] at h <;> try dsimp only at h
      · cases h
      rcases hadd : f.add_jm cfg j with _ | fb <;> rw [hadd] at h <;> try dsimp only at h
      · cases h
      refine ih (fams.set k fb.1) (assigned ++ [j]) fams2 asg2 ?_ ?_ h
      · exact famsBlock_set cfg jm fams k f fb.1 hb hget
          (add_jm_sms cfg f j fb.1 fb.2 (by rw [← hadd]))
      · intro x hx
        rcases List.mem_append.mp hx with hx2 | hx2
        · exact hasg x hx2
        · rw [List.mem_singleton.mp hx2]
          exact hj

/-- The `assign_perfect_fits` keeps a blocked JM in the stray list. -/
theorem apf_blocked (cfg : OldConfig) (jm : JM) (m m1 : FamilyMatcher)
    (hstray : jm ∈ m.stray_jms) (hb : FamsBlock cfg jm m.families)
    (h : assign_perfect_fits cfg m = some m1) :
    jm ∈ m1.stray_jms ∧ FamsBlock cfg jm m1.families := by
  unfold assign_perfect_fits at h
  rcases hl : apfLoop cfg m.stray_jms m.families [] with _ | p <;> rw [hl] at h <;>
    try dsimp only at h
  · cases h
  cases h
  have hp := apfLoop_blocked cfg jm m.stray_jms m.families [] p.1 p.2 hb
    (by intro x hx; cases hx) (by rw [hl])
  exact ⟨mem_removeAll_of_ne p.2 m.stray_jms jm hstray hp.2, hp.1⟩

end OldMatcher

namespace OldMatcher

/-- The stray loop of `perfect_stray_adds` for one blocked-for JM: the family
keeps its sms and the blocked JM is never assigned. -/
theorem psaInner_blocked (cfg : OldConfig) (jm : JM) (strays : List JM) :
    ∀ fam assigned fam2 asg2,
      SmsBlocks cfg jm fam.sms → (∀ x ∈ assigned, x ≠ jm) →
      psaInner cfg strays fam assigned = some (fam2, asg2) →
      fam2.sms = fam.sms ∧ (∀ x ∈ asg2, x ≠ jm) := by
  induction strays with
  | nil =>
    intro fam assigned fam2 asg2 _ hasg h
    unfold psaInner at h
    cases h
    exact ⟨rfl, hasg⟩
  | cons j rest ih =>
    intro fam assigned fam2 asg2 hb hasg h
    unfold psaInner at h
    split at h
    · exact ih fam assigned fam2 asg2 hb hasg h
    · by_cases hj : j = jm
      · subst hj
        rw [smsBlocks_add_check cfg j fam hb] at h
        try dsimp only at h
        exact ih fam assigned fam2 asg2 hb hasg h
      · rcases hchk : fam.jm_add_check cfg j with _ | bb <;> rw [hchk] at h <;>
          try dsimp only at h
        · cases h
        cases bb <;> try dsimp only at h
        · exact ih fam assigned fam2 asg2 hb hasg h
        · rcases hadd : fam.add_jm cfg j with _ | fb <;> rw [hadd] at h <;>
            try dsimp only at h
          · cases h
          have hsms := add_jm_sms cfg fam j fb.1 fb.2 (by rw [← hadd])
          have hrec := ih fb.1 (assigned ++ [j]) fam2 asg2
            (by rw [hsms]; exact hb)
            (by
              intro x hx
              rcases List.mem_append.mp hx with hx2 | hx2
              · exact hasg x hx2
              · rw [List.mem_singleton.mp hx2]; exact hj) h
          exact ⟨by rw [hrec.1, hsms], hrec.2⟩

/-- The family loop of `perfect_stray_adds` keeps a blocked JM stray. -/
theorem psaLoop_blocked (cfg : OldConfig) (jm : JM) (ks : List Nat) :
    ∀ fams strays fams2 strays2,
      FamsBlock cfg jm fams → jm ∈ strays →
      psaLoop cfg ks fams strays = some (fams2, strays2) →
      FamsBlock cfg jm fams2 ∧ jm ∈ strays2 := by
  induction ks with
  | nil =>
    intro fams strays fams2 strays2 hb hs h
    unfold psaLoop at h
    cases h
    exact ⟨hb, hs⟩
  | cons k rest ih =>
    intro fams strays fams2 strays2 hb hs h
    unfold psaLoop at h
    rcases hget : fams.get? k with _ | fam <;> rw [hget] at h <;>
      try dsimp only at h
    · cases h
    rcases hin : psaInner cfg strays fam [] with _ | p <;> rw [hin] at h <;>
      try dsimp only at h
    · cases h
    have hpi := psaInner_blocked cfg jm strays fam [] p.1 p.2
      (famsBlock_get cfg jm fams k fam hb hget)
      (by intro x hx; cases hx) (by rw [hin])
    exact ih (fams.set k p.1) (removeAll strays p.2) fams2 strays2
      (famsBlock_set cfg jm fams k fam p.1 hb hget hpi.1)
      (mem_removeAll_of_ne p.2 strays jm hs hpi.2) h

/-- The `perfect_stray_adds` keeps a blocked JM stray. -/
theorem psa_blocked (cfg : OldConfig) (jm : JM) (fams : List Family)
    (strays : List JM) (inc comp : List Nat) (fams2 : List Family)
    (strays2 : List JM) (inc2 comp2 : List Nat)
    (hb : FamsBlock cfg jm fams) (hs : jm ∈ strays)
    (h : perfect_stray_adds cfg fams strays inc comp =
      some (fams2, strays2, inc2, comp2)) :
    FamsBlock cfg jm fams2 ∧ jm ∈ strays2 := by
  unfold perfect_stray_adds at h
  rcases hl : psaLoop cfg inc fams strays with _ | p <;> rw [hl] at h <;>
    try dsimp only at h
  · cases h
  have hinj := Option.some.inj h
  have h1 : p.1 = fams2 := congrArg (fun t => t.1) hinj
  have h2 : p.2 = strays2 := congrArg (fun t => t.2.1) hinj
  rw [← h1, ← h2]
  exact psaLoop_blocked cfg jm inc fams strays p.1 p.2 hb hs (by rw [hl])

end OldMatcher

namespace OldMatcher

/-- The donor loop of `perfect_steals` keeps the family list blocked. -/
theorem stealDonors_famsBlock (cfg : OldConfig) (jm : JM) (comp : List Nat) :
    ∀ fams ri fams2, FamsBlock cfg jm fams →
      stealDonors cfg fams ri comp = some fams2 → FamsBlock cfg jm fams2 := by
  induction comp with
  | nil =>
    intro fams ri fams2 hb h
    unfold stealDonors at h
    cases h
    exact hb
  | cons ci rest ih =>
    intro fams ri fams2 hb h
    unfold stealDonors at h
    rcases hri : fams.get? ri with _ | recv <;> rw [hri] at h <;>
      try dsimp only at h
    · cases h
    rcases hci : fams.get? ci with _ | donor <;> rw [hci] at h <;>
      try dsimp only at h
    · cases h
    rcases hscan : stealScan cfg recv donor donor.jms with _ | ores <;>
      rw [hscan] at h <;> try dsimp only at h
    · cases h
    rcases ores with _ | sjm <;> try dsimp only at h
    · exact ih fams ri fams2 hb h
    rcases hadd : recv.add_jm cfg sjm with _ | rb <;> rw [hadd] at h <;>
      try dsimp only at h
    · cases h
    rcases hci2 : (fams.set ri rb.1).get? ci with _ | donor1 <;> rw [hci2] at h <;>
      try dsimp only at h
    · cases h
    rcases hrem : donor1.remove_jm cfg sjm with _ | db <;> rw [hrem] at h <;>
      try dsimp only at h
    · cases h
    cases h
    have hb1 : FamsBlock cfg jm (fams.set ri rb.1) :=
      famsBlock_set cfg jm fams ri recv rb.1 hb hri
        (add_jm_sms cfg recv sjm rb.1 rb.2 (by rw [← hadd]))
    exact famsBlock_set cfg jm (fams.set ri rb.1) ci donor1 db.1 hb1 hci2
      (remove_jm_sms cfg donor1 sjm db.1 db.2 (by rw [← hrem]))

/-- The receiver loop of `perfect_steals` keeps the family list blocked. -/
theorem pstLoop_famsBlock (cfg : OldConfig) (jm : JM) (ks : List Nat) :
    ∀ fams comp fams2, FamsBlock cfg jm fams →
      pstLoop cfg ks fams comp = some fams2 → FamsBlock cfg jm fams2 := by
  induction ks with
  | nil =>
    intro fams comp fams2 hb h
    unfold pstLoop at h
    cases h
    exact hb
  | cons ri rest ih =>
    intro fams comp fams2 hb h
    unfold pstLoop at h
    rcases hd : stealDonors cfg fams ri comp with _ | famsA <;> rw [hd] at h <;>
      try dsimp only at h
    · cases h
    exact ih famsA comp fams2
      (stealDonors_famsBlock cfg jm comp fams ri famsA hb hd) h

/-- The other-family loop of `perfect_swaps` keeps the family list blocked. -/
theorem swapFamLoop_famsBlock (cfg : OldConfig) (jm : JM) (ri : Nat)
    (fs : List Nat) :
    ∀ fams fams2, FamsBlock cfg jm fams →
      swapFamLoop cfg ri fs fams = some fams2 → FamsBlock cfg jm fams2 := by
  induction fs with
  | nil =>
    intro fams fams2 hb h
    unfold swapFamLoop at h
    cases h
    exact hb
  | cons fi rest ih =>
    intro fams fams2 hb h
    unfold swapFamLoop at h
    rcases hri : fams.get? ri with _ | famI <;> rw [hri] at h <;>
      try dsimp only at h
    · cases h
    rcases hfi : fams.get? fi with _ | famF <;> rw [hfi] at h <;>
      try dsimp only at h
    · cases h
    rcases hscan : swapScan cfg famI famF famI.jms with _ | ores <;>
      rw [hscan] at h <;> try dsimp only at h
    · cases h
    rcases ores with _ | p <;> try dsimp only at h
    · exact ih fams fams2 hb h
    rcases hsw1 : famI.swap_jm cfg p.1 p.2 with _ | ib <;> rw [hsw1] at h <;>
      try dsimp only at h
    · cases h
    rcases hfi2 : (fams.set ri ib.1).get? fi with _ | famF1 <;> rw [hfi2] at h <;>
      try dsimp only at h
    · cases h
    rcases hsw2 : famF1.swap_jm cfg p.2 p.1 with _ | fb <;> rw [hsw2] at h <;>
      try dsimp only at h
    · cases h
    have hb1 : FamsBlock cfg jm (fams.set ri ib.1) :=
      famsBlock_set cfg jm fams ri famI ib.1 hb hri
        (swap_jm_sms cfg famI p.1 p.2 ib.1 ib.2 (by rw [← hsw1]))
    exact ih ((fams.set ri ib.1).set fi fb.1) fams2
      (famsBlock_set cfg jm (fams.set ri ib.1) fi famF1 fb.1 hb1 hfi2
        (swap_jm_sms cfg famF1 p.2 p.1 fb.1 fb.2 (by rw [← hsw2]))) h

/-- The receiver loop of `perfect_swaps` keeps the family list blocked. -/
theorem pswLoop_famsBlock (cfg : OldConfig) (jm : JM) (ks : List Nat) :
    ∀ fams fams2, FamsBlock cfg jm fams →
      pswLoop cfg ks fams = some fams2 → FamsBlock cfg jm fams2 := by
  induction ks with
  | nil =>
    intro fams fams2 hb h
    unfold pswLoop at h
    cases h
    exact hb
  | cons ri rest ih =>
    intro fams fams2 hb h
    unfold pswLoop at h
    rcases hl : swapFamLoop cfg ri (List.range fams.length) fams with _ | famsA <;>
      rw [hl] at h <;> try dsimp only at h
    · cases h
    exact ih famsA fams2
      (swapFamLoop_famsBlock cfg jm ri (List.range fams.length) fams famsA hb hl) h

end OldMatcher

namespace OldMatcher

/-- A successful stray scan for a fixed member certifies the `allow_swap`
guard. -/
theorem strayScanInner_some (cfg : OldConfig) (f : Family) (jmF : JM)
    (l : List JM) (s : JM) (h : strayScanInner cfg f jmF l = some (some s)) :
    Family.allow_swap cfg f jmF s = some true := by
  induction l with
  | nil => cases h
  | cons s0 rest ih =>
    unfold strayScanInner at h
    rcases hsw : f.allow_swap cfg jmF s0 with _ | b <;> rw [hsw] at h <;>
      try dsimp only at h
    · cases h
    cases b <;> try dsimp only at h
    · exact ih h
    · cases h
      exact hsw

/-- A successful stray scan yields a member of the scanned list and a stray
satisfying the `allow_swap` guard. -/
theorem strayScan_some (cfg : OldConfig) (f : Family) (strays : List JM)
    (l : List JM) (p : JM × JM) (h : strayScan cfg f strays l = some (some p)) :
    p.1 ∈ l ∧ Family.allow_swap cfg f p.1 p.2 = some true := by
  induction l with
  | nil => cases h
  | cons jmF rest ih =>
    unfold strayScan at h
    rcases hin : strayScanInner cfg f jmF strays with _ | ores <;> rw [hin] at h <;>
      try dsimp only at h
    · cases h
    rcases ores with _ | s <;> try dsimp only at h
    · rcases ih h with ⟨h1, h2⟩
      exact ⟨List.mem_cons_of_mem jmF h1, h2⟩
    · cases h
      exact ⟨List.mem_cons_self jmF rest,
        strayScanInner_some cfg f jmF strays s hin⟩

/-- The family loop of `perfect_stray_swaps` keeps a blocked JM stray. -/
theorem pssLoop_blocked (cfg : OldConfig) (jm : JM) (ks : List Nat) :
    ∀ fams strays fams2 strays2,
      FamsBlock cfg jm fams → jm ∈ strays →
      pssLoop cfg ks fams strays = some (fams2, strays2) →
      FamsBlock cfg jm fams2 ∧ jm ∈ strays2 := by
  induction ks with
  | nil =>
    intro fams strays fams2 strays2 hb hs h
    unfold pssLoop at h
    cases h
    exact ⟨hb, hs⟩
  | cons k rest ih =>
    intro fams strays fams2 strays2 hb hs h
    unfold pssLoop at h
    rcases hget : fams.get? k with _ | f <;> rw [hget] at h <;>
      try dsimp only at h
    · cases h
    rcases hscan : strayScan cfg f strays f.jms with _ | ores <;>
      rw [hscan] at h <;> try dsimp only at h
    · cases h
    rcases ores with _ | p <;> try dsimp only at h
    · exact ih fams strays fams2 strays2 hb hs h
    rcases hsw : f.swap_jm cfg p.1 p.2 with _ | fb <;> rw [hsw] at h <;>
      try dsimp only at h
    · cases h
    rcases strayScan_some cfg f strays f.jms p hscan with ⟨hp1, hp2⟩
    have hne : jm ≠ p.2 := by
      intro heq
      rcases allow_swap_incoming_blocked cfg f p.1 jm
          (famsBlock_get cfg jm fams k f hb hget) hp1 with hc | hc <;>
        rw [← heq] at hp2 <;> rw [hp2] at hc <;> cases hc
    exact ih (fams.set k fb.1) (strays.erase p.2 ++ [p.1]) fams2 strays2
      (famsBlock_set cfg jm fams k f fb.1 hb hget
        (swap_jm_sms cfg f p.1 p.2 fb.1 fb.2 (by rw [← hsw])))
      (List.mem_append.mpr (Or.inl ((List.mem_erase_of_ne hne).mpr hs))) h

end OldMatcher

namespace OldMatcher

/-- The `perfect_steals` keeps the family list blocked. -/
theorem pst_famsBlock (cfg : OldConfig) (jm : JM) (fams : List Family)
    (inc comp : List Nat) (fams2 : List Family) (inc2 comp2 : List Nat)
    (hb : FamsBlock cfg jm fams)
    (h : perfect_steals cfg fams inc comp = some (fams2, inc2, comp2)) :
    FamsBlock cfg jm fams2 := by
  unfold perfect_steals at h
  rcases hl : pstLoop cfg inc fams comp with _ | famsA <;> rw [hl] at h <;>
    try dsimp only at h
  · cases h
  have h1 : famsA = fams2 := congrArg (fun t => t.1) (Option.some.inj h)
  rw [← h1]
  exact pstLoop_famsBlock cfg jm inc fams comp famsA hb hl

/-- The `perfect_swaps` keeps the family list blocked. -/
theorem psw_famsBlock (cfg : OldConfig) (jm : JM) (fams : List Family)
    (inc comp : List Nat) (fams2 : List Family) (inc2 comp2 : List Nat)
    (hb : FamsBlock cfg jm fams)
    (h : perfect_swaps cfg fams inc comp = some (fams2, inc2, comp2)) :
    FamsBlock cfg jm fams2 := by
  unfold perfect_swaps at h
  rcases hl : pswLoop cfg inc fams with _ | famsA <;> rw [hl] at h <;>
    try dsimp only at h
  · cases h
  have h1 : famsA = fams2 := congrArg (fun t => t.1) (Option.some.inj h)
  rw [← h1]
  exact pswLoop_famsBlock cfg jm inc fams famsA hb hl

/-- The `perfect_stray_swaps` keeps a blocked JM stray. -/
theorem pss_blocked (cfg : OldConfig) (jm : JM) (fams : List Family)
    (strays : List JM) (inc comp : List Nat) (fams2 : List Family)
    (strays2 : List JM) (inc2 comp2 : List Nat)
    (hb : FamsBlock cfg jm fams) (hs : jm ∈ strays)
    (h : perfect_stray_swaps cfg fams strays inc comp =
      some (fams2, strays2, inc2, comp2)) :
    FamsBlock cfg jm fams2 ∧ jm ∈ strays2 := by
  unfold perfect_stray_swaps at h
  rcases hl : pssLoop cfg (List.range fams.length) fams strays with _ | p <;>
    rw [hl] at h <;> try dsimp only at h
  · cases h
  have hinj := Option.some.inj h
  have h1 : p.1 = fams2 := congrArg (fun t => t.1) hinj
  have h2 : p.2 = strays2 := congrArg (fun t => t.2.1) hinj
  rw [← h1, ← h2]
  exact pssLoop_blocked cfg jm (List.range fams.length) fams strays p.1 p.2
    hb hs (by rw [hl])

/-- One full controller pass keeps a blocked JM stray. -/
theorem fullPass_blocked (cfg : OldConfig) (jm : JM) (m m2 : FamilyMatcher)
    (hs : jm ∈ m.stray_jms) (hb : FamsBlock cfg jm m.families)
    (h : fullPass cfg m = some m2) :
    jm ∈ m2.stray_jms ∧ FamsBlock cfg jm m2.families := by
  unfold fullPass at h
  rcases h1 : assign_perfect_fits cfg m with _ | m1 <;> rw [h1] at h <;>
    try dsimp only at h
  · cases h
  have ha := apf_blocked cfg jm m m1 hs hb h1
  rcases h2 : perfect_stray_adds cfg m1.families m1.stray_jms
      (split_families_by_status m1.families).1
      (split_families_by_status m1.families).2 with _ | q2 <;> rw [h2] at h <;>
    try dsimp only at h
  · cases h
  rcases q2 with ⟨fams2, strays2, inc2, comp2⟩
  have hpsa := psa_blocked cfg jm m1.families m1.stray_jms
    (split_families_by_status m1.families).1
    (split_families_by_status m1.families).2 fams2 strays2 inc2 comp2
    ha.2 ha.1 h2
  rcases h3 : perfect_steals cfg fams2 inc2 comp2 with _ | q3 <;> rw [h3] at h <;>
    try dsimp only at h
  · cases h
  rcases q3 with ⟨fams3, inc3, comp3⟩
  have hpst := pst_famsBlock cfg jm fams2 inc2 comp2 fams3 inc3 comp3 hpsa.1 h3
  rcases h4 : perfect_swaps cfg fams3 inc3 comp3 with _ | q4 <;> rw [h4] at h <;>
    try dsimp only at h
  · cases h
  rcases q4 with ⟨fams4, inc4, comp4⟩
  have hpsw := psw_famsBlock cfg jm fams3 inc3 comp3 fams4 inc4 comp4 hpst h4
  rcases h5 : perfect_stray_swaps cfg fams4 strays2 inc4 comp4 with _ | q5 <;>
    rw [h5] at h <;> try dsimp only at h
  · cases h
  rcases q5 with ⟨fams5, strays5, inc5, comp5⟩
  have hpss := pss_blocked cfg jm fams4 strays2 inc4 comp4 fams5 strays5
    inc5 comp5 hpsw hpsa.2 h5
  cases h
  exact ⟨hpss.2, hpss.1⟩

/-- The bounded iteration keeps a blocked JM stray. -/
theorem iterAux_blocked (cfg : OldConfig) (jm : JM) (n : Nat) :
    ∀ m m2, jm ∈ m.stray_jms → FamsBlock cfg jm m.families →
      iterAux cfg n m = some m2 →
      jm ∈ m2.stray_jms ∧ FamsBlock cfg jm m2.families := by
  induction n with
  | zero =>
    intro m m2 hs hb h
    unfold iterAux at h
    cases h
    exact ⟨hs, hb⟩
  | succ k ih =>
    intro m m2 hs hb h
    unfold iterAux at h
    rcases hp : fullPass cfg m with _ | mA <;> rw [hp] at h <;>
      try dsimp only at h
    · cases h
    have hf := fullPass_blocked cfg jm m mA hs hb hp
    exact ih mA m2 hf.1 hf.2 h

/-- A conjunction with a `some false` check is `some false`. -/
theorem checkAll_singleton_false {α : Type} (chk : α → Option Bool) (x : α)
    (acc : Bool) (hx : chk x = some false) :
    checkAll chk [x] acc = some false := by
  unfold checkAll
  rw [hx]
  unfold checkAll
  rw [Bool.and_false]

/-- The `badJM` is rejected by the add and swap checks of any family carrying
`prefSms`, whatever its membership: its rating 5 for the SM pair's option
exceeds the preference threshold 2. -/
theorem badJM_blocks : SmsBlocks prefCfg badJM prefSms := by
  constructor
  · intro jms st
    exact checkAll_singleton_false _ _ _ rfl
  · intro jms st ws
    exact checkAll_singleton_false _ _ _ rfl

end OldMatcher

namespace OldMatcher

/-- C4: an agent with no strictly positive preference for any group has all
its exact-formulation decision variables fixed at zero, and an agent that
every family rejects (regardless of that family's current membership) stays
in the heuristic strategy's stray list across the whole `iterate` run. -/
theorem C4_no_positive_pref_stays_unassigned :
    (∀ (slots : List Matcher.Slot) (prefs : List Matcher.JMPreference)
        (uid : String),
      (∀ s ∈ slots, Matcher.prefGet prefs uid s.id ≤ 0) →
      ∀ (sol : Matcher.Sol), ∀ s ∈ slots,
        Matcher.assignVal prefs sol uid s.id = 0)
    ∧ (∀ (cfg : OldConfig) (m : FamilyMatcher) (jm : JM),
      jm ∈ m.stray_jms → FamsBlock cfg jm m.families →
      ∀ m2, iterate cfg m = some m2 → jm ∈ m2.stray_jms) := by
  constructor
  · intro slots prefs uid h sol s hs
    unfold Matcher.assignVal Matcher.isVariable
    simp [not_lt.mpr (h s hs)]
  · intro cfg m jm hs hb m2 h
    exact (iterAux_blocked cfg jm MAX_ITERS m m2 hs hb h).1

set_option maxRecDepth 40000 in
/-- C4 witness: with no recorded preferences, agent "a"'s variable for the
one slot is fixed at zero; and `badJM` survives the full 100-pass iterate of
a matcher whose single family carries `prefSms`. -/
theorem C4_no_positive_pref_stays_unassigned_witness :
    Matcher.assignVal [] Matcher.solAll "a" "s" = 0
    ∧ badJM ∈ (FamilyMatcher.mk [prefFam] [badJM]).stray_jms :=
  ⟨C4_no_positive_pref_stays_unassigned.1 Matcher.exSlots [] "a" (by decide)
     Matcher.solAll ⟨"s", "t", ["S1", "S2"]⟩ (by decide),
   C4_no_positive_pref_stays_unassigned.2 prefCfg ⟨[prefFam], [badJM]⟩ badJM
     (List.mem_singleton.mpr rfl)
     (by
       intro f hf
       rw [List.mem_singleton.mp hf]
       exact badJM_blocks)
     ⟨[prefFam], [badJM]⟩ rfl⟩

end OldMatcher

namespace OldMatcher

/-- The `assign_perfect_fits`'s stray loop never changes the number of families. -/
theorem apfLoop_length (cfg : OldConfig) (strays : List JM) :
    ∀ fams assigned fams2 asg2,
      apfLoop cfg strays fams assigned = some (fams2, asg2) →
      fams2.length = fams.length := by
  induction strays with
  | nil =>
    intro fams assigned fams2 asg2 h
    unfold apfLoop at h
    cases h
    rfl
  | cons j rest ih =>
    intro fams assigned fams2 asg2 h
    unfold apfLoop at h
    rcases hscan : apfScan cfg fams j with _ | ores <;> rw [hscan] at h <;>
      try dsimp only at h
    · cases h
    rcases ores with _ | k <;> try dsimp only at h
    · exact ih fams assigned fams2 asg2 h
    rcases hget : fams.get? k with _ | f <;> rw [hget] at h <;> try dsimp only at h
    · cases h
    rcases hadd : f.add_jm cfg j with _ | fb <;> rw [hadd] at h <;> try dsimp only at h
    · cases h
    rw [ih (fams.set k fb.1) (assigned ++ [j]) fams2 asg2 h]
    exact List.length_set fams k fb.1

/-- The `perfect_stray_adds`'s family loop never changes the number of families. -/
theorem psaLoop_length (cfg : OldConfig) (ks : List Nat) :
    ∀ fams strays fams2 strays2,
      psaLoop cfg ks fams strays = some (fams2, strays2) →
      fams2.length = fams.length := by
  induction ks with
  | nil =>
    intro fams strays fams2 strays2 h
    unfold psaLoop at h
    cases h
    rfl
  | cons k rest ih =>
    intro fams strays fams2 strays2 h
    unfold psaLoop at h
    rcases hget : fams.get? k with _ | fam <;> rw [hget] at h <;> try dsimp only at h
    · cases h
    rcases hin : psaInner cfg strays fam [] with _ | p <;> rw [hin] at h <;>
      try dsimp only at h
    · cases h
    rw [ih (fams.set k p.1) (removeAll strays p.2) fams2 strays2 h]
    exact List.length_set fams k p.1

/-- The `perfect_steals`'s donor loop never changes the number of families. -/
theorem stealDonors_length (cfg : OldConfig) (comp : List Nat) :
    ∀ fams ri fams2, stealDonors cfg fams ri comp = some fams2 →
      fams2.length = fams.length := by
  induction comp with
  | nil =>
    intro fams ri fams2 h
    unfold stealDonors at h
    cases h
    rfl
  | cons ci rest ih =>
    intro fams ri fams2 h
    unfold stealDonors at h
    rcases hri : fams.get? ri with _ | recv <;> rw [hri] at h <;> try dsimp only at h
    · cases h
    rcases hci : fams.get? ci with _ | donor <;> rw [hci] at h <;> try dsimp only at h
    · cases h
    rcases hscan : stealScan cfg recv donor donor.jms with _ | ores <;>
      rw [hscan] at h <;> try dsimp only at h
    · cases h
    rcases ores with _ | sjm <;> try dsimp only at h
    · exact ih fams ri fams2 h
    rcases hadd : recv.add_jm cfg sjm with _ | rb <;> rw [hadd] at h <;>
      try dsimp only at h
    · cases h
    rcases hci2 : (fams.set ri rb.1).get? ci with _ | donor1 <;> rw [hci2] at h <;>
      try dsimp only at h
    · cases h
    rcases hrem : donor1.remove_jm cfg sjm with _ | db <;> rw [hrem] at h <;>
      try dsimp only at h
    · cases h
    cases h
    simp

/-- The `perfect_steals`'s receiver loop never changes the number of families. -/
theorem pstLoop_length (cfg : OldConfig) (ks : List Nat) :
    ∀ fams comp fams2, pstLoop cfg ks fams comp = some fams2 →
      fams2.length = fams.length := by
  induction ks with
  | nil =>
    intro fams comp fams2 h
    unfold pstLoop at h
    cases h
    rfl
  | cons ri rest ih =>
    intro fams comp fams2 h
    unfold pstLoop at h
    rcases hd : stealDonors cfg fams ri comp with _ | famsA <;> rw [hd] at h <;>
      try dsimp only at h
    · cases h
    rw [ih famsA comp fams2 h]
    exact stealDonors_length cfg comp fams ri famsA hd

/-- The `perfect_swaps`'s inner loop never changes the number of families. -/
theorem swapFamLoop_length (cfg : OldConfig) (ri : Nat) (fs : List Nat) :
    ∀ fams fams2, swapFamLoop cfg ri fs fams = some fams2 →
      fams2.length = fams.length := by
  induction fs with
  | nil =>
    intro fams fams2 h
    unfold swapFamLoop at h
    cases h
    rfl
  | cons fi rest ih =>
    intro fams fams2 h
    unfold swapFamLoop at h
    rcases hri : fams.get? ri with _ | famI <;> rw [hri] at h <;> try dsimp only at h
    · cases h
    rcases hfi : fams.get? fi with _ | famF <;> rw [hfi] at h <;> try dsimp only at h
    · cases h
    rcases hscan : swapScan cfg famI famF famI.jms with _ | ores <;>
      rw [hscan] at h <;> try dsimp only at h
    · cases h
    rcases ores with _ | p <;> try dsimp only at h
    · exact ih fams fams2 h
    rcases hsw1 : famI.swap_jm cfg p.1 p.2 with _ | ib <;> rw [hsw1] at h <;>
      try dsimp only at h
    · cases h
    rcases hfi2 : (fams.set ri ib.1).get? fi with _ | famF1 <;> rw [hfi2] at h <;>
      try dsimp only at h
    · cases h
    rcases hsw2 : famF1.swap_jm cfg p.2 p.1 with _ | fb <;> rw [hsw2] at h <;>
      try dsimp only at h
    · cases h
    rw [ih ((fams.set ri ib.1).set fi fb.1) fams2 h]
    simp

/-- The `perfect_swaps`'s receiver loop never changes the number of families. -/
theorem pswLoop_length (cfg : OldConfig) (ks : List Nat) :
    ∀ fams fams2, pswLoop cfg ks fams = some fams2 →
      fams2.length = fams.length := by
  induction ks with
  | nil =>
    intro fams fams2 h
    unfold pswLoop at h
    cases h
    rfl
  | cons ri rest ih =>
    intro fams fams2 h
    unfold pswLoop at h
    rcases hl : swapFamLoop cfg ri (List.range fams.length) fams with _ | famsA <;>
      rw [hl] at h <;> try dsimp only at h
    · cases h
    rw [ih famsA fams2 h]
    exact swapFamLoop_length cfg ri (List.range fams.length) fams famsA hl

/-- The `perfect_stray_swaps`'s loop never changes the number of families. -/
theorem pssLoop_length (cfg : OldConfig) (ks : List Nat) :
    ∀ fams strays fams2 strays2,
      pssLoop cfg ks fams strays = some (fams2, strays2) →
      fams2.length = fams.length := by
  induction ks with
  | nil =>
    intro fams strays fams2 strays2 h
    unfold pssLoop at h
    cases h
    rfl
  | cons k rest ih =>
    intro fams strays fams2 strays2 h
    unfold pssLoop at h
    rcases hget : fams.get? k with _ | f <;> rw [hget] at h <;> try dsimp only at h
    · cases h
    rcases hscan : strayScan cfg f strays f.jms with _ | ores <;>
      rw [hscan] at h <;> try dsimp only at h
    · cases h
    rcases ores with _ | p <;> try dsimp only at h
    · exact ih fams strays fams2 strays2 h
    rcases hsw : f.swap_jm cfg p.1 p.2 with _ | fb <;> rw [hsw] at h <;>
      try dsimp only at h
    · cases h
    rw [ih (fams.set k fb.1) (strays.erase p.2 ++ [p.1]) fams2 strays2 h]
    simp

/-- One full pass never changes the number of families. -/
theorem fullPass_length (cfg : OldConfig) (m m2 : FamilyMatcher)
    (h : fullPass cfg m = some m2) :
    m2.families.length = m.families.length := by
  unfold fullPass at h
  rcases h1 : assign_perfect_fits cfg m with _ | m1 <;> rw [h1] at h <;>
    try dsimp only at h
  · cases h
  have hm1 : m1.families.length = m.families.length := by
    unfold assign_perfect_fits at h1
    rcases hl : apfLoop cfg m.stray_jms m.families [] with _ | p <;>
      rw [hl] at h1 <;> try dsimp only at h1
    · cases h1
    cases h1
    exact apfLoop_length cfg m.stray_jms m.families [] p.1 p.2 (by rw [hl])
  rcases h2 : perfect_stray_adds cfg m1.families m1.stray_jms
      (split_families_by_status m1.families).1
      (split_families_by_status m1.families).2 with _ | q2 <;> rw [h2] at h <;>
    try dsimp only at h
  · cases h
  rcases q2 with ⟨fams2, strays2, inc2, comp2⟩
  have hl2 : fams2.length = m1.families.length := by
    unfold perfect_stray_adds at h2
    rcases hl : psaLoop cfg (split_families_by_status m1.families).1
        m1.families m1.stray_jms with _ | p <;> rw [hl] at h2 <;>
      try dsimp only at h2
    · cases h2
    have h1p : p.1 = fams2 := congrArg (fun t => t.1) (Option.some.inj h2)
    rw [← h1p]
    exact psaLoop_length cfg (split_families_by_status m1.families).1
      m1.families m1.stray_jms p.1 p.2 (by rw [hl])
  rcases h3 : perfect_steals cfg fams2 inc2 comp2 with _ | q3 <;> rw [h3] at h <;>
    try dsimp only at h
  · cases h
  rcases q3 with ⟨fams3, inc3, comp3⟩
  have hl3 : fams3.length = fams2.length := by
    unfold perfect_steals at h3
    rcases hl : pstLoop cfg inc2 fams2 comp2 with _ | famsA <;> rw [hl] at h3 <;>
      try dsimp only at h3
    · cases h3
    have h1p : famsA = fams3 := congrArg (fun t => t.1) (Option.some.inj h3)
    rw [← h1p]
    exact pstLoop_length cfg inc2 fams2 comp2 famsA hl
  rcases h4 : perfect_swaps cfg fams3 inc3 comp3 with _ | q4 <;> rw [h4] at h <;>
    try dsimp only at h
  · cases h
  rcases q4 with ⟨fams4, inc4, comp4⟩
  have hl4 : fams4.length = fams3.length := by
    unfold perfect_swaps at h4
    rcases hl : pswLoop cfg inc3 fams3 with _ | famsA <;> rw [hl] at h4 <;>
      try dsimp only at h4
    · cases h4
    have h1p : famsA = fams4 := congrArg (fun t => t.1) (Option.some.inj h4)
    rw [← h1p]
    exact pswLoop_length cfg inc3 fams3 famsA hl
  rcases h5 : perfect_stray_swaps cfg fams4 strays2 inc4 comp4 with _ | q5 <;>
    rw [h5] at h <;> try dsimp only at h
  · cases h
  rcases q5 with ⟨fams5, strays5, inc5, comp5⟩
  have hl5 : fams5.length = fams4.length := by
    unfold perfect_stray_swaps at h5
    rcases hl : pssLoop cfg (List.range fams4.length) fams4 strays2 with _ | p <;>
      rw [hl] at h5 <;> try dsimp only at h5
    · cases h5
    have h1p : p.1 = fams5 := congrArg (fun t => t.1) (Option.some.inj h5)
    rw [← h1p]
    exact pssLoop_length cfg (List.range fams4.length) fams4 strays2 p.1 p.2
      (by rw [hl])
  cases h
  show fams5.length = m.families.length
  rw [hl5, hl4, hl3, hl2, hm1]

/-- The bounded iteration never changes the number of families. -/
theorem iterAux_length (cfg : OldConfig) (n : Nat) :
    ∀ m m2, iterAux cfg n m = some m2 →
      m2.families.length = m.families.length := by
  induction n with
  | zero =>
    intro m m2 h
    unfold iterAux at h
    cases h
    rfl
  | succ k ih =>
    intro m m2 h
    unfold iterAux at h
    rcases hp : fullPass cfg m with _ | mA <;> rw [hp] at h <;>
      try dsimp only at h
    · cases h
    rw [ih mA m2 h]
    exact fullPass_length cfg m mA hp

/-- The loop of `iterate` is exactly `n` unconditional monadic passes. -/
theorem iterAux_eq_passes (cfg : OldConfig) (n : Nat) :
    ∀ m, iterAux cfg n m = passes cfg n m := by
  induction n with
  | zero => intro m; rfl
  | succ k ih =>
    intro m
    unfold iterAux passes
    rw [Function.iterate_succ_apply]
    show (match fullPass cfg m with
      | none => none
      | some m2 => iterAux cfg k m2) =
      (fun om => om.bind (fullPass cfg))^[k] (fullPass cfg m)
    rcases hp : fullPass cfg m with _ | mA
    · exact (Function.iterate_fixed rfl k).symm
    · exact ih mA

end OldMatcher

namespace OldMatcher

/-- C7: the heuristic controller runs exactly the fixed cap of 100 full
passes, unconditionally (no early exit), and a completed run returns every
family (INCOMPLETE ones included) rather than failing. -/
theorem C7_iterate_runs_fixed_cap :
    MAX_ITERS = 100
    ∧ (∀ cfg m, iterate cfg m = passes cfg MAX_ITERS m)
    ∧ (∀ cfg m m2, iterate cfg m = some m2 →
        m2.families.length = m.families.length) := by
  refine ⟨rfl, ?_, ?_⟩
  · intro cfg m
    exact iterAux_eq_passes cfg MAX_ITERS m
  · intro cfg m m2 h
    exact iterAux_length cfg MAX_ITERS m m2 h

set_option maxRecDepth 40000 in
/-- C7 witness. -/
theorem C7_iterate_runs_fixed_cap_witness :
    iterate exCfg ⟨[], []⟩ = passes exCfg MAX_ITERS ⟨[], []⟩ ∧
    (FamilyMatcher.mk [] []).families.length =
      (FamilyMatcher.mk [] []).families.length :=
  ⟨C7_iterate_runs_fixed_cap.2.1 exCfg ⟨[], []⟩,
   C7_iterate_runs_fixed_cap.2.2 exCfg ⟨[], []⟩ ⟨[], []⟩ rfl⟩

end OldMatcher

namespace OldMatcher

/-- The `add_jm` grows the membership by at most one (exactly one on success, at
most one after a rollback). -/
theorem add_jm_length (cfg : OldConfig) (f : Family) (jm : JM) (f2 : Family)
    (b : Bool) (h : Family.add_jm cfg f jm = some (f2, b)) :
    f2.jms.length ≤ f.jms.length + 1 := by
  unfold Family.add_jm at h
  rcases hu : Family.update_status cfg { f with jms := f.jms ++ [jm] } with _ | f3
  · rw [hu] at h
    dsimp only at h
    split at h
    · rcases Option.map_eq_some'.mp h with ⟨f4, hf4, hpair⟩
      cases hpair
      have hj := (update_status_fields cfg _ _ hf4).2
      rw [hj]
      have : jm ∈ f.jms ++ [jm] := List.mem_append.mpr (Or.inr (List.mem_singleton.mpr rfl))
      rw [List.length_erase_of_mem this]
      simp
    · rcases Option.map_eq_some'.mp h with ⟨f4, hf4, hpair⟩
      cases hpair
      have hj := (update_status_fields cfg _ _ hf4).2
      rw [hj]
      simp
  · rw [hu] at h
    dsimp only at h
    cases h
    have hj := (update_status_fields cfg _ _ hu).2
    rw [hj]
    simp

/-- A successful steal scan certifies the guards of the source condition. -/
theorem stealScan_spec (cfg : OldConfig) (recv donor : Family) (l : List JM)
    (j : JM) (h : stealScan cfg recv donor l = some (some j)) :
    cfg.jm_count_constraint.is_satisfied ((recv.jms.length : Int)) = false ∧
    recv.jm_add_check cfg j = some true ∧
    donor.allow_steal cfg j = some true ∧ j ∈ l := by
  induction l with
  | nil => cases h
  | cons x rest ih =>
    unfold stealScan at h
    split at h
    · rcases ih h with ⟨h1, h2, h3, h4⟩
      exact ⟨h1, h2, h3, List.mem_cons_of_mem x h4⟩
    · rename_i hcond
      rcases hchk : recv.jm_add_check cfg x with _ | b1 <;> rw [hchk] at h <;>
        try dsimp only at h
      · cases h
      cases b1 <;> try dsimp only at h
      · rcases ih h with ⟨h1, h2, h3, h4⟩
        exact ⟨h1, h2, h3, List.mem_cons_of_mem x h4⟩
      · rcases hst : donor.allow_steal cfg x with _ | b2 <;> rw [hst] at h <;>
          try dsimp only at h
        · cases h
        cases b2 <;> try dsimp only at h
        · rcases ih h with ⟨h1, h2, h3, h4⟩
          exact ⟨h1, h2, h3, List.mem_cons_of_mem x h4⟩
        · cases h
          exact ⟨Bool.eq_false_iff.mpr hcond, hchk, hst,
            List.mem_cons_self _ rest⟩

/-- The donor loop of one receiver leaves every other non-donor family
untouched. -/
theorem stealDonors_stable (cfg : OldConfig) (comp : List Nat) :
    ∀ fams ri fams2, stealDonors cfg fams ri comp = some fams2 →
      ∀ k, k ≠ ri → k ∉ comp → fams2.get? k = fams.get? k := by
  induction comp with
  | nil =>
    intro fams ri fams2 h k _ _
    unfold stealDonors at h
    cases h
    rfl
  | cons ci rest ih =>
    intro fams ri fams2 h k hkri hkcomp
    have hkci : k ≠ ci := fun he => hkcomp (he ▸ List.mem_cons_self ci rest)
    have hkrest : k ∉ rest := fun hr => hkcomp (List.mem_cons_of_mem ci hr)
    unfold stealDonors at h
    rcases hri : fams.get? ri with _ | recv <;> rw [hri] at h <;> try dsimp only at h
    · cases h
    rcases hci : fams.get? ci with _ | donor <;> rw [hci] at h <;> try dsimp only at h
    · cases h
    rcases hscan : stealScan cfg recv donor donor.jms with _ | ores <;>
      rw [hscan] at h <;> try dsimp only at h
    · cases h
    rcases ores with _ | sjm <;> try dsimp only at h
    · exact ih fams ri fams2 h k hkri hkrest
    rcases hadd : recv.add_jm cfg sjm with _ | rb <;> rw [hadd] at h <;>
      try dsimp only at h
    · cases h
    rcases hci2 : (fams.set ri rb.1).get? ci with _ | donor1 <;> rw [hci2] at h <;>
      try dsimp only at h
    · cases h
    rcases hrem : donor1.remove_jm cfg sjm with _ | db <;> rw [hrem] at h <;>
      try dsimp only at h
    · cases h
    cases h
    rw [List.get?_set_ne _ _ (fun he => hkci he.symm),
      List.get?_set_ne _ _ (fun he => hkri he.symm)]

/-- The donor loop grows its receiver by at most one member. -/
theorem stealDonors_recvBound (cfg : OldConfig) (comp : List Nat) :
    ∀ fams ri fams2, ri ∉ comp →
      stealDonors cfg fams ri comp = some fams2 →
      ∀ fk fk2, fams.get? ri = some fk → fams2.get? ri = some fk2 →
        fk2.jms.length ≤ fk.jms.length + 1 := by
  induction comp with
  | nil =>
    intro fams ri fams2 _ h fk fk2 h1 h2
    unfold stealDonors at h
    cases h
    rw [h1] at h2
    cases h2
    exact Nat.le_succ _
  | cons ci rest ih =>
    intro fams ri fams2 hri h fk fk2 h1 h2
    have hrici : ri ≠ ci := fun he => hri (he ▸ List.mem_cons_self ci rest)
    have hrirest : ri ∉ rest := fun hr => hri (List.mem_cons_of_mem ci hr)
    unfold stealDonors at h
    rcases hgri : fams.get? ri with _ | recv <;> rw [hgri] at h <;> try dsimp only at h
    · cases h
    rcases hgci : fams.get? ci with _ | donor <;> rw [hgci] at h <;> try dsimp only at h
    · cases h
    rcases hscan : stealScan cfg recv donor donor.jms with _ | ores <;>
      rw [hscan] at h <;> try dsimp only at h
    · cases h
    rcases ores with _ | sjm <;> try dsimp only at h
    · exact ih fams ri fams2 hrirest h fk fk2 h1 h2
    rcases hadd : recv.add_jm cfg sjm with _ | rb <;> rw [hadd] at h <;>
      try dsimp only at h
    · cases h
    rcases hci2 : (fams.set ri rb.1).get? ci with _ | donor1 <;> rw [hci2] at h <;>
      try dsimp only at h
    · cases h
    rcases hrem : donor1.remove_jm cfg sjm with _ | db <;> rw [hrem] at h <;>
      try dsimp only at h
    · cases h
    cases h
    have hlt : ri < fams.length := by
      by_contra hge
      rw [List.get?_eq_none.mpr (Nat.le_of_not_lt hge)] at hgri
      cases hgri
    have hget2 : (((fams.set ri rb.1).set ci db.1)).get? ri = some rb.1 := by
      rw [List.get?_set_ne _ _ (Ne.symm hrici)]
      exact List.get?_set_eq_of_lt rb.1 hlt
    rw [hget2] at h2
    cases h2
    have hfk : fk = recv := by
      rw [h1] at hgri
      exact Option.some.inj hgri
    rw [hfk]
    exact add_jm_length cfg recv sjm rb.1 rb.2 (by rw [← hadd])

/-- The receiver loop leaves families outside both lists untouched. -/
theorem pstLoop_stable (cfg : OldConfig) (inc : List Nat) :
    ∀ fams comp fams2, pstLoop cfg inc fams comp = some fams2 →
      ∀ k, k ∉ inc → k ∉ comp → fams2.get? k = fams.get? k := by
  induction inc with
  | nil =>
    intro fams comp fams2 h k _ _
    unfold pstLoop at h
    cases h
    rfl
  | cons ri rest ih =>
    intro fams comp fams2 h k hkinc hkcomp
    have hkri : k ≠ ri := fun he => hkinc (he ▸ List.mem_cons_self ri rest)
    have hkrest : k ∉ rest := fun hr => hkinc (List.mem_cons_of_mem ri hr)
    unfold pstLoop at h
    rcases hd : stealDonors cfg fams ri comp with _ | famsA <;> rw [hd] at h <;>
      try dsimp only at h
    · cases h
    rw [ih famsA comp fams2 h k hkrest hkcomp]
    exact stealDonors_stable cfg comp fams ri famsA hd k hkri hkcomp

/-- Each receiver gains at most one member in one whole steal pass. -/
theorem pstLoop_receiverBound (cfg : OldConfig) (inc : List Nat) :
    ∀ fams comp fams2, (∀ i ∈ inc, i ∉ comp) → inc.Nodup →
      pstLoop cfg inc fams comp = some fams2 →
      ∀ k ∈ inc, ∀ fk fk2, fams.get? k = some fk → fams2.get? k = some fk2 →
        fk2.jms.length ≤ fk.jms.length + 1 := by
  induction inc with
  | nil =>
    intro fams comp fams2 _ _ _ k hk
    cases hk
  | cons ri rest ih =>
    intro fams comp fams2 hdisj hnd h k hk fk fk2 h1 h2
    have hrirest : ri ∉ rest := (List.nodup_cons.mp hnd).1
    have hndrest : rest.Nodup := (List.nodup_cons.mp hnd).2
    unfold pstLoop at h
    rcases hd : stealDonors cfg fams ri comp with _ | famsA <;> rw [hd] at h <;>
      try dsimp only at h
    · cases h
    rcases List.mem_cons.mp hk with rfl | hk2
    · have hstab : fams2.get? k = famsA.get? k :=
        pstLoop_stable cfg rest famsA comp fams2 h k hrirest
          (hdisj k (List.mem_cons_self k rest))
      rw [hstab] at h2
      exact stealDonors_recvBound cfg comp fams k famsA
        (hdisj k (List.mem_cons_self k rest)) hd fk fk2 h1 h2
    · have hkri : k ≠ ri := fun he => hrirest (he ▸ hk2)
      have hstab : famsA.get? k = fams.get? k :=
        stealDonors_stable cfg comp fams ri famsA hd k hkri
          (hdisj k (List.mem_cons_of_mem ri hk2))
      exact ih famsA comp fams2
        (fun i hi => hdisj i (List.mem_cons_of_mem ri hi)) hndrest h k hk2
        fk fk2 (by rw [hstab]; exact h1) h2

end OldMatcher

namespace OldMatcher

/-- The steal scan takes the first admissible member in encounter order:
every earlier member failed its own guard. -/
theorem stealScan_first (cfg : OldConfig) (recv donor : Family) (l : List JM)
    (j : JM) (h : stealScan cfg recv donor l = some (some j)) :
    ∃ l1 l2, l = l1 ++ j :: l2 ∧
      ∀ x ∈ l1, recv.jm_add_check cfg x = some false ∨
        donor.allow_steal cfg x = some false := by
  induction l with
  | nil => cases h
  | cons x rest ih =>
    unfold stealScan at h
    split at h
    · rename_i hcond
      have hspec := stealScan_spec cfg recv donor rest j h
      rw [hspec.1] at hcond
      cases hcond
    · rcases hchk : recv.jm_add_check cfg x with _ | b1 <;> rw [hchk] at h <;>
        try dsimp only at h
      · cases h
      cases b1 <;> try dsimp only at h
      · rcases ih h with ⟨l1, l2, heq, hall⟩
        refine ⟨x :: l1, l2, by rw [heq]; rfl, ?_⟩
        intro y hy
        rcases List.mem_cons.mp hy with rfl | hy2
        · exact Or.inl hchk
        · exact hall y hy2
      · rcases hst : donor.allow_steal cfg x with _ | b2 <;> rw [hst] at h <;>
          try dsimp only at h
        · cases h
        cases b2 <;> try dsimp only at h
        · rcases ih h with ⟨l1, l2, heq, hall⟩
          refine ⟨x :: l1, l2, by rw [heq]; rfl, ?_⟩
          intro y hy
          rcases List.mem_cons.mp hy with rfl | hy2
          · exact Or.inr hst
          · exact hall y hy2
        · cases h
          exact ⟨[], rest, rfl, by intro y hy; cases hy⟩

/-- C8 counterexample: in one steal pass (`perfect_steals`' loop) the single
donor family — starting with four members — donates to two different
receivers, losing two members: the per-pass limit is per receiver (the
`break` ends the receiver's donor scan), not per donor group. -/
theorem C8_donor_donates_twice_counterexample :
    donorFam.jms.length = 4 ∧
    (pstLoop wideCfg [0, 1] [emptyFam, emptyFam2, donorFam] [2]).map
      (fun fs => fs.map (fun f => f.jms.length)) = some [1, 1, 2] := by
  constructor
  · rfl
  · rfl

/-- C8 (amended): a steal happens only under the source guards — the
receiver's size is not yet satisfied, the receiver's add check passes, and
the donor's `allow_steal` (remaining members still satisfied, shrunken size
within bounds) passes; the first admissible member in encounter order is
taken; and each RECEIVER gains at most one member per steal pass. -/
theorem C8_steal_guard_and_receiver_bound :
    (∀ (cfg : OldConfig) (recv donor : Family) (l : List JM) (j : JM),
      stealScan cfg recv donor l = some (some j) →
      cfg.jm_count_constraint.is_satisfied ((recv.jms.length : Int)) = false ∧
      recv.jm_add_check cfg j = some true ∧
      donor.allow_steal cfg j = some true ∧ j ∈ l)
    ∧ (∀ (cfg : OldConfig) (recv donor : Family) (l : List JM) (j : JM),
      stealScan cfg recv donor l = some (some j) →
      ∃ l1 l2, l = l1 ++ j :: l2 ∧
        ∀ x ∈ l1, recv.jm_add_check cfg x = some false ∨
          donor.allow_steal cfg x = some false)
    ∧ (∀ (cfg : OldConfig) (inc comp : List Nat) (fams fams2 : List Family),
      (∀ i ∈ inc, i ∉ comp) → inc.Nodup →
      pstLoop cfg inc fams comp = some fams2 →
      ∀ k ∈ inc, ∀ fk fk2, fams.get? k = some fk → fams2.get? k = some fk2 →
        fk2.jms.length ≤ fk.jms.length + 1) := by
  refine ⟨?_, ?_, ?_⟩
  · intro cfg recv donor l j h
    exact stealScan_spec cfg recv donor l j h
  · intro cfg recv donor l j h
    exact stealScan_first cfg recv donor l j h
  · intro cfg inc comp fams fams2 hdisj hnd h k hk fk fk2 h1 h2
    exact pstLoop_receiverBound cfg inc fams comp fams2 hdisj hnd h k hk
      fk fk2 h1 h2

/-- C8 witness: the guards hold for the first stolen member in the concrete
scenario, and the first receiver of that pass ends with one member, within
its bound of zero plus one. -/
theorem C8_steal_guard_and_receiver_bound_witness :
    (wideCfg.jm_count_constraint.is_satisfied ((emptyFam.jms.length : Int)) = false ∧
     emptyFam.jm_add_check wideCfg (mkJM "j1") = some true ∧
     donorFam.allow_steal wideCfg (mkJM "j1") = some true ∧
     mkJM "j1" ∈ donorFam.jms)
    ∧ (∃ l1 l2, donorFam.jms = l1 ++ mkJM "j1" :: l2 ∧
        ∀ x ∈ l1, emptyFam.jm_add_check wideCfg x = some false ∨
          donorFam.allow_steal wideCfg x = some false)
    ∧ (Family.mk ⟨["A1", "A2"], []⟩ [mkJM "j1"]
        FamilyStatus.COMPLETE).jms.length ≤ emptyFam.jms.length + 1 :=
  ⟨C8_steal_guard_and_receiver_bound.1 wideCfg emptyFam donorFam
     donorFam.jms (mkJM "j1") rfl,
   C8_steal_guard_and_receiver_bound.2.1 wideCfg emptyFam donorFam
     donorFam.jms (mkJM "j1") rfl,
   C8_steal_guard_and_receiver_bound.2.2 wideCfg [0, 1] [2]
     [emptyFam, emptyFam2, donorFam]
     [⟨⟨["A1", "A2"], []⟩, [mkJM "j1"], FamilyStatus.COMPLETE⟩,
      ⟨⟨["B1", "B2"], []⟩, [mkJM "j2"], FamilyStatus.COMPLETE⟩,
      ⟨⟨["D1", "D2"], []⟩, [mkJM "j3", mkJM "j4"], FamilyStatus.COMPLETE⟩]
     (by decide) (by decide) rfl 0 (by decide) emptyFam
     ⟨⟨["A1", "A2"], []⟩, [mkJM "j1"], FamilyStatus.COMPLETE⟩ rfl rfl⟩

end OldMatcher

namespace OldMatcher

/-- C10 witness. -/
theorem C10_remove_absent_appends_witness :
    ∃ f2, Family.remove_jm exCfg emptyFam (mkJM "x") = some (f2, false) ∧
      f2.jms = emptyFam.jms ++ [mkJM "x"] ∧ (mkJM "x") ∈ f2.jms ∧
      emptyFam.jms.length < f2.jms.length :=
  C10_remove_absent_appends exCfg emptyFam (mkJM "x") (by decide) (by decide)

end OldMatcher
